import Mathlib

/-!
Verification of the Family Tree Generator (src/script.js).

The development shallowly embeds the two core components of the program:

* the relationship resolver (`generateTree`'s line loop, `processSpouses`,
  `processChild`, `addPersonWithAncestry`, `buildAncestryChain`,
  `createPerson`, `linkParentChild`, `extractParentName`,
  `findExistingParent`, and the spouse-child inheritance closure), and
* the layout engine (`calculateCustomPositions` with its union-find,
  group graph, `computeSubtreeWidth` and `assignPositions` passes, and
  `applyLayoutRotation`).

JavaScript `Map`s and `Set`s are modelled as insertion-ordered association
lists / duplicate-free lists; JS string primitives (`split`, `trim`,
`includes`, `join`) are modelled by executable functions over `String.data`.
Unbounded `while` loops / recursion are modelled with an explicit fuel
argument chosen at the call site to dominate the real iteration count
(each ancestry step strictly shortens the name, which is proved below).
Numeric positions use `ℚ`; the four rotation angles 0, π, π/2, -π/2 are
modelled with their exact cosines and sines.
-/

namespace FamilyTree

/-! ### JS string primitives -/

/-- Splitting a character list at every occurrence of `sep`, keeping empty
segments: the semantics of JS `String.prototype.split` with a one-character
separator. -/
def splitChars (sep : Char) : List Char → List (List Char)
  | [] => [[]]
  | ch :: rest =>
    let r := splitChars sep rest
    if ch = sep then [] :: r
    else
      match r with
      | h :: t => (ch :: h) :: t
      | [] => [[ch]]

/-- Joining character lists with a separator between consecutive segments:
the semantics of JS `Array.prototype.join` with a one-character separator. -/
def joinChars (sep : Char) : List (List Char) → List Char
  | [] => []
  | [x] => x
  | x :: xs => x ++ sep :: joinChars sep xs

/-- JS `s.split(c)` (single-character separator). -/
def jsSplit (c : Char) (s : String) : List String :=
  (splitChars c s.data).map String.mk

/-- JS `parts.join(c)` (single-character separator). -/
def jsJoin (c : Char) (parts : List String) : String :=
  String.mk (joinChars c (parts.map String.data))

/-- JS `s.trim()`: strip leading and trailing whitespace. -/
def jsTrim (s : String) : String :=
  String.mk (((s.data.dropWhile Char.isWhitespace).reverse.dropWhile Char.isWhitespace).reverse)

/-- JS `s.includes(c)` for a single character. -/
def jsContains (s : String) (c : Char) : Bool :=
  s.data.contains c

/-! ### Insertion-ordered association lists (JS `Map`) and sets (JS `Set`).
`aset` on an existing key updates the entry in place (JS `Map.set` keeps the
original insertion position); on a fresh key it appends at the end. -/

def aget {α : Type} : List (String × α) → String → Option α
  | [], _ => none
  | (k', v) :: rest, k => if k' = k then some v else aget rest k

def aset {α : Type} : List (String × α) → String → α → List (String × α)
  | [], k, v => [(k, v)]
  | (k', v') :: rest, k, v =>
    if k' = k then (k, v) :: rest else (k', v') :: aset rest k v

/-- JS `Set.add`: append if absent (insertion order, duplicates suppressed). -/
def addToSet (l : List String) (x : String) : List String :=
  if x ∈ l then l else l ++ [x]

/-! ### The resolver data model (`createPerson` in src/script.js) -/

structure Person where
  name : String
  displayName : String
  parents : List String
  spouses : List String
  children : List String
  processed : Bool
  rootName : String
deriving DecidableEq

/-- The shared people map (`peopleData`), an insertion-ordered `Map`. -/
abbrev People := List (String × Person)

/-- Resolver state: the people map plus the `spouseRelations` and `mothers`
sets local to `generateTree`. -/
structure RState where
  people : People
  spouseRelations : List String
  mothers : List String
deriving DecidableEq

/-- `name.split(' ').slice(0, 2).join(' ')` — the display name. -/
def displayNameOf (name : String) : String :=
  jsJoin ' ' ((jsSplit ' ' name).take 2)

/-- `createPerson` from src/script.js. -/
def createPerson (name displayName : String) : Person :=
  { name := name
    displayName := displayName
    parents := []
    spouses := []
    children := []
    processed := false
    rootName := name }

/-- `extractParentName`: `name.split(' ').slice(1).join(' ') || null`. -/
def extractParentName (name : String) : Option String :=
  let p := jsJoin ' ' ((jsSplit ' ' name).drop 1)
  if p = "" then none else some p

/-- First half of `linkParentChild`: add `parent` to the child's `parents`
list if absent.  (In the source a missing map entry would be a crash; every
call site guarantees presence, and the model makes the update a no-op.) -/
def addParentEntry (people : People) (parent child : String) : People :=
  match aget people child with
  | some c =>
    if parent ∈ c.parents then people
    else aset people child { c with parents := c.parents ++ [parent] }
  | none => people

/-- Second half of `linkParentChild`: add `child` to the parent's `children`
list if absent. -/
def addChildEntry (people : People) (parent child : String) : People :=
  match aget people parent with
  | some p =>
    if child ∈ p.children then people
    else aset people parent { p with children := p.children ++ [child] }
  | none => people

/-- `linkParentChild` from src/script.js: its two statement groups executed
in order. -/
def linkParentChild (people : People) (parent child : String) : People :=
  addChildEntry (addParentEntry people parent child) parent child

/-- The `while (true)` loop of `buildAncestryChain`, with fuel.  Each
iteration strips the leading name token (`extractParentName`), materializes
the parent if new, links parent and current, and tracks the last ancestor
as the running root name. -/
def ancestryLoop : Nat → People → String → String → People × String
  | 0, people, _, rootName => (people, rootName)
  | fuel + 1, people, current, rootName =>
    match extractParentName current with
    | none => (people, rootName)
    | some parentName =>
      let people :=
        if (aget people parentName).isSome then people
        else aset people parentName (createPerson parentName (displayNameOf parentName))
      let people := linkParentChild people parentName current
      ancestryLoop fuel people parentName parentName

/-- `buildAncestryChain`: run the ancestry loop from `name`, then store the
resulting root name on the person called `name`.  The fuel `name.length + 1`
dominates the loop's iteration count because every `extractParentName` step
strictly shortens the name (proved below as `extractParentName_length_lt`). -/
def buildAncestryChain (people : People) (name : String) : People :=
  let r := ancestryLoop (name.length + 1) people name name
  match aget r.1 name with
  | some person => aset r.1 name { person with rootName := r.2 }
  | none => r.1

/-- `addPersonWithAncestry`: create the person on first reference and
synthesize the ancestry chain; a no-op for an already-known name. -/
def addPersonWithAncestry (people : People) (name : String) : People :=
  if (aget people name).isSome then people
  else
    let people := aset people name (createPerson name (displayNameOf name))
    buildAncestryChain people name

/-- One spouse-set update of `processSpouses`:
`people.get(a).spouses.add(b)`. -/
def addSpouseEntry (people : People) (a b : String) : People :=
  match aget people a with
  | some p => aset people a { p with spouses := addToSet p.spouses b }
  | none => people

/-- `processSpouses`: materialize both union participants, then (unless the
unordered pair was already recorded) add each to the other's spouse set,
record the sorted pair key, and mark the right participant in `mothers`. -/
def processSpouses (st : RState) (left right : String) : RState :=
  let people := addPersonWithAncestry st.people left
  let people := addPersonWithAncestry people right
  let key := if right < left then right ++ "+" ++ left else left ++ "+" ++ right
  if key ∈ st.spouseRelations then { st with people := people }
  else
    let people := addSpouseEntry people left right
    let people := addSpouseEntry people right left
    { people := people
      spouseRelations := st.spouseRelations ++ [key]
      mothers := addToSet st.mothers right }

/-- `findExistingParent`: among the child's parents prefer the first one in
the `mothers` set, falling back to the first-listed parent.  The JS `||`
falls through on the falsy `""` as well as on a missed `find`. -/
def findExistingParent (people : People) (child : String) (mothers : List String) :
    Option String :=
  match aget people child with
  | none => none
  | some person =>
    if person.parents.isEmpty then none
    else
      match person.parents.find? (fun p => mothers.contains p) with
      | some p => if p = "" then person.parents.head? else some p
      | none => person.parents.head?

/-- `processChild`: materialize the child, then link it to the chosen
existing parent (the JS caller skips the link when `findExistingParent`
returns a falsy value: `null` or `""`). -/
def processChild (st : RState) (child : String) : RState :=
  let people := addPersonWithAncestry st.people child
  match findExistingParent people child st.mothers with
  | some potentialParent =>
    if potentialParent = "" then { st with people := people }
    else { st with people := linkParentChild people potentialParent child }
  | none => { st with people := people }

/-- One line of `generateTree`'s input loop: trim, skip blanks, dispatch on
the `+` separator.  A union line is split on every `+` and the first two
trimmed segments are taken (JS destructuring `[left, right] = ...`). -/
def processLine (st : RState) (rawLine : String) : RState :=
  let line := jsTrim rawLine
  if line = "" then st
  else if jsContains line '+' then
    match (jsSplit '+' line).map jsTrim with
    | left :: right :: _ => processSpouses st left right
    | _ => st
  else processChild st line

def initialState : RState := ⟨[], [], []⟩

/-- The resolver pass over all input lines. -/
def resolveLines (lines : List String) : RState :=
  lines.foldl processLine initialState

/-- One step of the spouse-child inheritance closure for a fixed person and
child: `spouseNode && !spouseNode.children.includes(child)` guards the push. -/
def inheritToSpouse (people : People) (child spouse : String) : People :=
  match aget people spouse with
  | some spouseNode =>
    if child ∈ spouseNode.children then people
    else aset people spouse { spouseNode with children := spouseNode.children ++ [child] }
  | none => people

/-- The closure's body for one person: for every child, for every spouse,
push the child onto the spouse's children if absent.  The person's child
list is read at this person's turn (JS `forEach` does not visit elements
appended past the length captured at the start of the iteration). -/
def inheritFromPerson (people : People) (name : String) : People :=
  match aget people name with
  | some person =>
    person.children.foldl
      (fun acc child => person.spouses.foldl (fun acc2 s => inheritToSpouse acc2 child s) acc)
      people
  | none => people

/-- The spouse-child inheritance closure (`peopleData.forEach` after the
line loop): a single pass over the people map in insertion order. -/
def inheritanceClosure (people : People) : People :=
  (people.map (fun e => e.1)).foldl inheritFromPerson people

/-- The resolver portion of `generateTree`: process every line, then run
the inheritance closure exactly once. -/
def generateTreePeople (lines : List String) : People :=
  inheritanceClosure (resolveLines lines).people

/-! ### Derived predicates used by the theorems -/

/-- The people map has an entry for `k`. -/
def hasKey (m : People) (k : String) : Prop := ∃ P, aget m k = some P

/-- `child` is recorded in `parent`'s children list. -/
def childLinked (m : People) (parent child : String) : Prop :=
  ∃ P, aget m parent = some P ∧ child ∈ P.children

/-- `parent` is recorded in `child`'s parents list. -/
def parentLinked (m : People) (child parent : String) : Prop :=
  ∃ C, aget m child = some C ∧ parent ∈ C.parents

/-- Modelled from the spec: "the most distant ancestor reached by following
the implicit ancestry chain from this person" — repeatedly strip the leading
name token until no parent name remains.  Fuelled like the source loop. -/
def chainRootAux : Nat → String → String
  | 0, name => name
  | fuel + 1, name =>
    match extractParentName name with
    | none => name
    | some p => chainRootAux fuel p

/-- Modelled from the spec: the root full name of a given full name. -/
def chainRoot (name : String) : String :=
  chainRootAux (name.length + 1) name

/-! ### The layout engine (`calculateCustomPositions`, `applyLayoutRotation`)

Coordinates are `ℚ`.  The group-level descent graph (`parentChildMap`) is an
insertion-ordered association list from a group representative to its list
of child representatives (a JS `Set`, realized as a duplicate-free list). -/

structure LNode where
  id : String
  label : String
  x : ℚ := 0
  y : ℚ := 0
deriving DecidableEq

/-- A vis.js edge as the layout consumes it: endpoints plus the `dashes`
flag (dashed = spouse/union edge, solid = parent→child edge).  The source's
`from`/`to` fields are named `src`/`dst` here. -/
structure LEdge where
  src : String
  dst : String
  dashes : Bool
deriving DecidableEq

abbrev GroupGraph := List (String × List String)
abbrev WMap := List (String × ℚ)
abbrev PosMap := List (String × (ℚ × ℚ))

def childrenOf (g : GroupGraph) (rep : String) : Option (List String) := aget g rep

/-- `baseWidth` in `calculateCustomPositions`: minimum width for a group. -/
def baseWidth : ℚ := 100

/-- `computeSubtreeWidth`, fuelled: a childless group takes the minimum
width; otherwise the sum of the children's footprints plus `horizontalGap`
between consecutive siblings, floored at the minimum width.  Each computed
width is memoized into the `subtreeWidths` map (threaded through).  The
source recursion has no depth or cycle guard, which the fuel argument makes
observable: on a graph where the recursion does not bottom out, no amount
of fuel produces a result. -/
def computeSubtreeWidth (g : GroupGraph) (gap : ℚ) :
    Nat → WMap → String → Option (ℚ × WMap)
  | 0, _, _ => none
  | fuel + 1, m, rep =>
    match childrenOf g rep with
    | none => some (baseWidth, aset m rep baseWidth)
    | some cs => do
      let r ← cs.foldlM (fun (acc : ℚ × WMap) c => do
          let w ← computeSubtreeWidth g gap fuel acc.2 c
          pure (acc.1 + w.1, w.2)) ((0 : ℚ), m)
      let width := max baseWidth (r.1 + gap * ((cs.length : ℚ) - 1))
      pure (width, aset r.2 rep width)

/-- The horizontal spans the `assignPositions` child loop allocates: child
`i` occupies `[currentX, currentX + width i)` and the next sibling starts at
`currentX + width i + gap` (mirrors the source's `currentX` accumulator).
Each entry is `(childRep, xStart, width)`. -/
def childSpans (widths : String → ℚ) (gap : ℚ) : ℚ → List String → List (String × ℚ × ℚ)
  | _, [] => []
  | x, c :: cs => (c, x, widths c) :: childSpans widths gap (x + widths c + gap) cs

/-- Does this node have an outgoing solid (descent) edge? -/
def hasChildEdge (edges : List LEdge) (i : String) : Bool :=
  edges.any (fun e => !e.dashes && e.src == i)

/-- One iteration of the group-member placement loop in `assignPositions`:
spouses without descent edges sit to the right of the anchor by
`labelWidth * 1.5`; a spouse with descent edges shifts the anchor left by
half that amount and sits to its right. -/
def placeMember (edges : List LEdge) (lw : String → ℚ) (main : String) (baseX y : ℚ)
    (acc : PosMap) (nodeId : String) : PosMap :=
  if nodeId = main then acc
  else
    let lwv := lw nodeId
    if hasChildEdge edges nodeId then
      let mainPos := (aget acc main).getD (0, 0)
      let mainPos2 := (mainPos.1 - lwv * (3 / 2) / 2, mainPos.2)
      let acc2 := aset acc main mainPos2
      aset acc2 nodeId (mainPos2.1 + lwv * (3 / 2), y)
    else aset acc nodeId (baseX + lwv * (3 / 2), y)

/-- `assignPositions`, fuelled: place the group's anchor member at the span
midpoint, offset the other members, then recurse over the children spans.
The node-label widths enter through the function `lw` (instantiated with
`labelWidthOf nodes` below, mirroring the source's `nodes.find` lookup). -/
def assignPositions (g : GroupGraph) (widths : WMap) (members : String → List String)
    (edges : List LEdge) (lw : String → ℚ) (vSpacing gap : ℚ) :
    Nat → String → ℚ → Nat → PosMap → PosMap
  | 0, _, _, _, acc => acc
  | fuel + 1, rep, xStart, level, acc =>
    let width := (aget widths rep).getD 0
    let baseX := xStart + width / 2
    let group := members rep
    let main := (group.find? (fun i => hasChildEdge edges i)).getD (group.headD "")
    let y := (level : ℚ) * vSpacing
    let acc1 := aset acc main (baseX, y)
    let acc2 := group.foldl (placeMember edges lw main baseX y) acc1
    match childrenOf g rep with
    | none => acc2
    | some cs =>
      (childSpans (fun c => (aget widths c).getD 0) gap xStart cs).foldl
        (fun a s => assignPositions g widths members edges lw vSpacing gap fuel s.1 s.2.1
          (level + 1) a) acc2

abbrev UFMap := List (String × String)

/-- The union-find `find` with path compression, fuelled (the parent chains
of the maps built here are short; the call sites pass `m.length + 1`). -/
def findUF : Nat → UFMap → String → String × UFMap
  | 0, m, x => (x, m)
  | fuel + 1, m, x =>
    match aget m x with
    | none => (x, aset m x x)
    | some p =>
      if p = x then (x, m)
      else
        let r := findUF fuel m p
        (r.1, aset r.2 x r.1)

def findUFD (m : UFMap) (x : String) : String × UFMap := findUF (m.length + 1) m x

/-- The union-find `union`: `parentUF[ry] = rx`. -/
def unionUF (m : UFMap) (x y : String) : UFMap :=
  let fx := findUFD m x
  let fy := findUFD fx.2 y
  if fx.1 = fy.1 then fy.2 else aset fy.2 fy.1 fx.1

/-- `labelWidthOf nodes id`: `nodeObj ? nodeObj.label.length * 8 : 80`. -/
def labelWidthOf (nodes : List LNode) (i : String) : ℚ :=
  match nodes.find? (fun n => n.id == i) with
  | some n => (n.label.length : ℚ) * 8
  | none => 80

/-- The body of `calculateCustomPositions` after reading the nodes' ids and
labels (the only node data it consumes): build spouse groups by union-find
over dashed edges, derive the group-level descent map and its roots, run
the width pass, the position pass (trees spaced by a fixed 200px gap), and
recenter the whole composite horizontally. -/
def calcCore (ids : List String) (lw : String → ℚ) (edges : List LEdge)
    (vSpacing gap : ℚ) : PosMap :=
  let uf0 := ids.foldl (fun m i => (findUFD m i).2) ([] : UFMap)
  let uf1 := edges.foldl (fun m e => if e.dashes then unionUF m e.src e.dst else m) uf0
  let repPass := ids.foldl (fun (acc : UFMap × List (String × String)) i =>
      let f := findUFD acc.1 i
      (f.2, acc.2 ++ [(i, f.1)])) (uf1, ([] : List (String × String)))
  let repOf := fun (i : String) => (aget repPass.2 i).getD i
  let groupNodes := ids.foldl (fun (gs : List (String × List String)) i =>
      let rep := repOf i
      match aget gs rep with
      | some l => aset gs rep (l ++ [i])
      | none => aset gs rep [i]) ([] : List (String × List String))
  let pcPass := edges.foldl (fun (acc : GroupGraph × List String) e =>
      if e.dashes then acc
      else
        let pRep := repOf e.src
        let cRep := repOf e.dst
        if pRep = cRep then acc
        else
          let pcm :=
            match aget acc.1 pRep with
            | some s => aset acc.1 pRep (addToSet s cRep)
            | none => aset acc.1 pRep [cRep]
          (pcm, addToSet acc.2 cRep)) (([] : GroupGraph), ([] : List String))
  let rootGroups := (groupNodes.map (fun e => e.1)).filter (fun rep => !(pcPass.2.contains rep))
  let fuel := ids.length + 1
  let widths := rootGroups.foldl (fun (wm : WMap) rep =>
      match computeSubtreeWidth pcPass.1 gap fuel wm rep with
      | some r => r.2
      | none => wm) ([] : WMap)
  let posPass := rootGroups.foldl (fun (acc : PosMap × ℚ) rep =>
      (assignPositions pcPass.1 widths (fun rp => (aget groupNodes rp).getD [])
        edges lw vSpacing gap fuel rep acc.2 0 acc.1,
       acc.2 + (aget widths rep).getD 0 + 200)) (([] : PosMap), (0 : ℚ))
  let totalWidth := posPass.2 - 200
  let centerOffset := -totalWidth / 2
  posPass.1.map (fun e => (e.1, (e.2.1 + centerOffset, e.2.2)))

/-- `calculateCustomPositions(nodes, edges)` with the spacing-slider values
as parameters; positions depend on the nodes only through ids and labels. -/
def calculateCustomPositions (nodes : List LNode) (edges : List LEdge)
    (vSpacing gap : ℚ) : PosMap :=
  calcCore (nodes.map (fun n => n.id)) (labelWidthOf nodes) edges vSpacing gap

/-- The four layout modes cycled by `toggleLayout`. -/
inductive LayoutMode where
  | upToDown
  | downToUp
  | leftToRight
  | rightToLeft
deriving DecidableEq

/-- Exact cosine of the mode's rotation angle (0, π, π/2, -π/2). -/
def rotCos : LayoutMode → ℚ
  | .upToDown => 1
  | .downToUp => -1
  | .leftToRight => 0
  | .rightToLeft => 0

/-- Exact sine of the mode's rotation angle. -/
def rotSin : LayoutMode → ℚ
  | .upToDown => 0
  | .downToUp => 0
  | .leftToRight => 1
  | .rightToLeft => -1

/-- The 2D rotation applied to one position. -/
def rotPoint (mode : LayoutMode) (p : ℚ × ℚ) : ℚ × ℚ :=
  (p.1 * rotCos mode - p.2 * rotSin mode, p.1 * rotSin mode + p.2 * rotCos mode)

/-- Horizontal recentering: shift every x by minus the midpoint of the
horizontal bounding box (on an empty map the shift is vacuous). -/
def recenterHoriz (pm : PosMap) : PosMap :=
  let xs := pm.map (fun e => e.2.1)
  let minX := xs.foldl min (xs.headD 0)
  let maxX := xs.foldl max (xs.headD 0)
  let offset := -((minX + maxX) / 2)
  pm.map (fun e => (e.1, (e.2.1 + offset, e.2.2)))

/-- Rotate every position, then recenter horizontally (the shared tail of
`applyLayoutRotation` and `toggleLayout`). -/
def rotateAndRecenter (mode : LayoutMode) (pm : PosMap) : PosMap :=
  recenterHoriz (pm.map (fun e => (e.1, rotPoint mode e.2)))

/-- `applyLayoutRotation`: recompute the canonical un-rotated layout from
the network's node/edge data, rotate by the current mode's angle, recenter.
The nodes' stored `x`/`y` (possibly from an earlier rotation) are part of
the input but are never read by the layout. -/
def applyLayoutRotation (mode : LayoutMode) (nodes : List LNode) (edges : List LEdge)
    (vSpacing gap : ℚ) : PosMap :=
  rotateAndRecenter mode (calculateCustomPositions nodes edges vSpacing gap)

/-- `network.body.data.nodes.update(...)`: write computed positions back
into the node records. -/
def updateNodePositions (nodes : List LNode) (pm : PosMap) : List LNode :=
  nodes.map (fun n =>
    match aget pm n.id with
    | some p => { n with x := p.1, y := p.2 }
    | none => n)

/-- The width recursion completes on `rep` for some recursion budget. -/
def subtreeWidthTerminates (g : GroupGraph) (gap : ℚ) (rep : String) : Prop :=
  ∃ fuel r, computeSubtreeWidth g gap fuel [] rep = some r

/-! ### Association list lemmas -/

theorem aget_aset_self {α : Type} (m : List (String × α)) (k : String) (v : α) :
    aget (aset m k v) k = some v := by
  induction m with
  | nil => simp [aget, aset]
  | cons e rest ih =>
    obtain ⟨k', v'⟩ := e
    by_cases h : k' = k
    · simp [aset, h, aget]
    · simp [aset, h, aget, ih]

theorem aget_aset_of_ne {α : Type} (m : List (String × α)) {k k' : String} (v : α)
    (h : k' ≠ k) : aget (aset m k v) k' = aget m k' := by
  have hk : ¬ k = k' := fun hh => h hh.symm
  induction m with
  | nil => simp [aget, aset, hk]
  | cons e rest ih =>
    obtain ⟨k0, v0⟩ := e
    by_cases h0 : k0 = k
    · subst h0
      simp [aset, aget, hk]
    · simp [aset, h0, aget, ih]

theorem hasKey_aset {α : Type} (m : List (String × α)) (k k' : String) (v : α) :
    (aget (aset m k v) k').isSome ↔ k' = k ∨ (aget m k').isSome := by
  by_cases h : k' = k
  · subst h; simp [aget_aset_self]
  · simp [aget_aset_of_ne m v h, h]

/-! ### The ancestry step strictly shortens the name -/

theorem splitChars_ne_nil (sep : Char) (l : List Char) : splitChars sep l ≠ [] := by
  cases l with
  | nil => simp [splitChars]
  | cons ch rest =>
    simp only [splitChars]
    by_cases h : ch = sep
    · simp [h]
    · simp only [if_neg h]
      cases hr : splitChars sep rest with
      | nil => simp
      | cons hd tl => simp

theorem joinChars_cons (sep : Char) (x : List Char) (xs : List (List Char)) (h : xs ≠ []) :
    joinChars sep (x :: xs) = x ++ sep :: joinChars sep xs := by
  cases xs with
  | nil => exact absurd rfl h
  | cons y ys => rfl

theorem joinChars_splitChars (sep : Char) (l : List Char) :
    joinChars sep (splitChars sep l) = l := by
  induction l with
  | nil => rfl
  | cons ch rest ih =>
    simp only [splitChars]
    by_cases h : ch = sep
    · subst h
      rw [if_pos rfl, joinChars_cons _ [] _ (splitChars_ne_nil _ rest)]
      simp [ih]
    · simp only [if_neg h]
      cases hr : splitChars sep rest with
      | nil => exact absurd hr (splitChars_ne_nil sep rest)
      | cons hd tl =>
        rw [hr] at ih
        cases tl with
        | nil =>
          simp only [joinChars] at ih ⊢
          rw [ih]
        | cons t ts =>
          rw [joinChars_cons sep hd (t :: ts) (by simp)] at ih
          rw [joinChars_cons sep (ch :: hd) (t :: ts) (by simp)]
          simp only [List.cons_append]
          rw [ih]

theorem string_length_data (s : String) : s.length = s.data.length := rfl

theorem extractParentName_length_lt {n p : String} (h : extractParentName n = some p) :
    p.length < n.length := by
  simp only [extractParentName] at h
  by_cases hp : jsJoin ' ' ((jsSplit ' ' n).drop 1) = ""
  · rw [if_pos hp] at h; exact absurd h (by simp)
  · rw [if_neg hp] at h
    injection h with h
    subst h
    cases hL : splitChars ' ' n.data with
    | nil => exact absurd hL (splitChars_ne_nil ' ' n.data)
    | cons hd tl =>
      have hdata : n.data = joinChars ' ' (hd :: tl) := by
        rw [← hL, joinChars_splitChars]
      have hjs : (jsSplit ' ' n).drop 1 = tl.map String.mk := by
        simp [jsSplit, hL]
      have hpdata : (jsJoin ' ' ((jsSplit ' ' n).drop 1)).data = joinChars ' ' tl := by
        rw [hjs]
        simp only [jsJoin]
        congr 1
        rw [List.map_map]
        have hcomp : String.data ∘ String.mk = id := rfl
        rw [hcomp, List.map_id]
      cases tl with
      | nil =>
        exfalso
        apply hp
        rw [hjs]
        rfl
      | cons t ts =>
        have : n.data = hd ++ ' ' :: joinChars ' ' (t :: ts) := by
          rw [hdata, joinChars_cons ' ' hd (t :: ts) (by simp)]
        rw [string_length_data, string_length_data, hpdata, this]
        simp only [List.length_append, List.length_cons]
        omega

/-! ### The full-ancestry-chain predicate and monotonicity of the resolver -/

/-- The whole implicit ancestry chain of `name` is materialized and linked
(in both directions) in the people map. -/
def ancestryLinked (m : People) (name : String) : Prop :=
  match h : extractParentName name with
  | none => True
  | some p => parentLinked m name p ∧ childLinked m p name ∧ ancestryLinked m p
termination_by name.length
decreasing_by exact extractParentName_length_lt h

/-- Monotonicity relation between people maps: every person persists and its
parents, children, and spouses lists only grow, while `rootName` is stable. -/
def Preserves (m m' : People) : Prop :=
  ∀ k P, aget m k = some P → ∃ P', aget m' k = some P' ∧
    P.parents ⊆ P'.parents ∧ P.children ⊆ P'.children ∧ P.spouses ⊆ P'.spouses ∧
    P'.rootName = P.rootName

/-- The link-only part of `Preserves` (used across the one update that does
change a `rootName`: the end of `buildAncestryChain` on a fresh person). -/
def PreservesLinks (m m' : People) : Prop :=
  ∀ k P, aget m k = some P → ∃ P', aget m' k = some P' ∧
    P.parents ⊆ P'.parents ∧ P.children ⊆ P'.children ∧ P.spouses ⊆ P'.spouses

theorem Preserves.links {m m' : People} (h : Preserves m m') : PreservesLinks m m' := by
  intro k P hP
  obtain ⟨P', h1, h2, h3, h4, _⟩ := h k P hP
  exact ⟨P', h1, h2, h3, h4⟩

theorem Preserves.refl (m : People) : Preserves m m := by
  intro k P hP
  exact ⟨P, hP, List.Subset.refl _, List.Subset.refl _, List.Subset.refl _, rfl⟩

theorem Preserves.trans {m₁ m₂ m₃ : People} (h : Preserves m₁ m₂) (h' : Preserves m₂ m₃) :
    Preserves m₁ m₃ := by
  intro k P hP
  obtain ⟨P', hP', s1, s2, s3, s4⟩ := h k P hP
  obtain ⟨P'', hP'', t1, t2, t3, t4⟩ := h' k P' hP'
  exact ⟨P'', hP'', s1.trans t1, s2.trans t2, s3.trans t3, t4.trans s4⟩

theorem PreservesLinks.selfLinks (m : People) : PreservesLinks m m := (Preserves.refl m).links

theorem PreservesLinks.transLinks {m₁ m₂ m₃ : People} (h : PreservesLinks m₁ m₂)
    (h' : PreservesLinks m₂ m₃) : PreservesLinks m₁ m₃ := by
  intro k P hP
  obtain ⟨P', hP', s1, s2, s3⟩ := h k P hP
  obtain ⟨P'', hP'', t1, t2, t3⟩ := h' k P' hP'
  exact ⟨P'', hP'', s1.trans t1, s2.trans t2, s3.trans t3⟩

theorem PreservesLinks.hasKey {m m' : People} (h : PreservesLinks m m') {k : String}
    (hk : hasKey m k) : hasKey m' k := by
  obtain ⟨P, hP⟩ := hk
  obtain ⟨P', hP', _⟩ := h k P hP
  exact ⟨P', hP'⟩

theorem PreservesLinks.childLinked {m m' : People} (h : PreservesLinks m m')
    {p c : String} (hl : childLinked m p c) : childLinked m' p c := by
  obtain ⟨P, hP, hc⟩ := hl
  obtain ⟨P', hP', _, hsub, _⟩ := h p P hP
  exact ⟨P', hP', hsub hc⟩

theorem PreservesLinks.parentLinked {m m' : People} (h : PreservesLinks m m')
    {c p : String} (hl : parentLinked m c p) : parentLinked m' c p := by
  obtain ⟨C, hC, hp⟩ := hl
  obtain ⟨C', hC', hsub, _⟩ := h c C hC
  exact ⟨C', hC', hsub hp⟩

theorem PreservesLinks.ancestry {m m' : People} (h : PreservesLinks m m') :
    ∀ {name : String}, ancestryLinked m name → ancestryLinked m' name := by
  have H : ∀ len, ∀ name : String, name.length = len →
      FamilyTree.ancestryLinked m name → FamilyTree.ancestryLinked m' name := by
    intro len
    induction len using Nat.strong_induction_on with
    | _ len ih =>
      intro name hlen hA
      rw [ancestryLinked] at hA ⊢
      cases hE : extractParentName name with
      | none => exact trivial
      | some p =>
        rw [hE] at hA
        obtain ⟨h1, h2, h3⟩ : FamilyTree.parentLinked m name p ∧
            FamilyTree.childLinked m p name ∧ ancestryLinked m p := hA
        exact show FamilyTree.parentLinked m' name p ∧
            FamilyTree.childLinked m' p name ∧ ancestryLinked m' p from
          ⟨h.parentLinked h1, h.childLinked h2,
            ih p.length (hlen ▸ extractParentName_length_lt hE) p rfl h3⟩
  exact fun {name} hA => H name.length name rfl hA

/-! ### `aset` and `linkParentChild` preserve the map -/

theorem preserves_aset_fresh {m : People} {k : String} (v : Person)
    (h : aget m k = none) : Preserves m (aset m k v) := by
  intro k' P hP
  have hne : k' ≠ k := by rintro rfl; rw [h] at hP; cases hP
  rw [aget_aset_of_ne m v hne]
  exact ⟨P, hP, List.Subset.refl _, List.Subset.refl _, List.Subset.refl _, rfl⟩

theorem preserves_aset_update {m : People} {k : String} {P v : Person}
    (h : aget m k = some P) (h1 : P.parents ⊆ v.parents) (h2 : P.children ⊆ v.children)
    (h3 : P.spouses ⊆ v.spouses) (h4 : v.rootName = P.rootName) :
    Preserves m (aset m k v) := by
  intro k' Q hQ
  by_cases hk : k' = k
  · subst hk
    rw [h] at hQ
    injection hQ with hQ
    subst hQ
    exact ⟨v, aget_aset_self m k' v, h1, h2, h3, h4⟩
  · rw [aget_aset_of_ne m v hk]
    exact ⟨Q, hQ, List.Subset.refl _, List.Subset.refl _, List.Subset.refl _, rfl⟩

theorem preserves_aset_outside {m m' : People} {k : String} (v : Person)
    (h : aget m k = none) (hp : Preserves m m') : Preserves m (aset m' k v) := by
  intro k' P hP
  have hne : k' ≠ k := by rintro rfl; rw [h] at hP; cases hP
  rw [aget_aset_of_ne m' v hne]
  exact hp k' P hP

theorem hasKey_aset_of_present {m : People} {kk : String} {v : Person}
    (hkk : hasKey m kk) {k : String} (h : hasKey (aset m kk v) k) : hasKey m k := by
  by_cases he : k = kk
  · subst he; exact hkk
  · obtain ⟨P, hP⟩ := h
    rw [aget_aset_of_ne m v he] at hP
    exact ⟨P, hP⟩

theorem addParentEntry_preserves (m : People) (p c : String) :
    Preserves m (addParentEntry m p c) := by
  unfold addParentEntry
  split
  · rename_i C hC
    split
    · exact Preserves.refl m
    · exact preserves_aset_update hC (List.subset_append_left _ _) (List.Subset.refl _)
        (List.Subset.refl _) rfl
  · exact Preserves.refl m

theorem addChildEntry_preserves (m : People) (p c : String) :
    Preserves m (addChildEntry m p c) := by
  unfold addChildEntry
  split
  · rename_i P hP
    split
    · exact Preserves.refl m
    · exact preserves_aset_update hP (List.Subset.refl _) (List.subset_append_left _ _)
        (List.Subset.refl _) rfl
  · exact Preserves.refl m

theorem linkParentChild_preserves (m : People) (p c : String) :
    Preserves m (linkParentChild m p c) :=
  (addParentEntry_preserves m p c).trans (addChildEntry_preserves _ p c)

theorem addParentEntry_hasKey {m : People} {p c k : String}
    (h : hasKey (addParentEntry m p c) k) : hasKey m k := by
  unfold addParentEntry at h
  revert h
  split
  · rename_i C hC
    split
    · exact id
    · exact fun h => hasKey_aset_of_present ⟨C, hC⟩ h
  · exact id

theorem addChildEntry_hasKey {m : People} {p c k : String}
    (h : hasKey (addChildEntry m p c) k) : hasKey m k := by
  unfold addChildEntry at h
  revert h
  split
  · rename_i P hP
    split
    · exact id
    · exact fun h => hasKey_aset_of_present ⟨P, hP⟩ h
  · exact id

theorem linkParentChild_hasKey {m : People} {p c k : String}
    (h : hasKey (linkParentChild m p c) k) : hasKey m k :=
  addParentEntry_hasKey (addChildEntry_hasKey h)

theorem addParentEntry_parentLinked {m : People} {p c : String} (hc : hasKey m c) :
    parentLinked (addParentEntry m p c) c p := by
  unfold addParentEntry
  split
  · rename_i C hC
    split
    · rename_i hq
      exact ⟨C, hC, hq⟩
    · exact ⟨_, aget_aset_self m c _, by simp⟩
  · rename_i hC
    obtain ⟨C, h⟩ := hc
    rw [hC] at h
    cases h

theorem addChildEntry_childLinked {m : People} {p c : String} (hp : hasKey m p) :
    childLinked (addChildEntry m p c) p c := by
  unfold addChildEntry
  split
  · rename_i P hP
    split
    · rename_i hq
      exact ⟨P, hP, hq⟩
    · exact ⟨_, aget_aset_self m p _, by simp⟩
  · rename_i hP
    obtain ⟨P, h⟩ := hp
    rw [hP] at h
    cases h

theorem linkParentChild_establishes {m : People} {p c : String}
    (hc : hasKey m c) (hp : hasKey m p) :
    parentLinked (linkParentChild m p c) c p ∧ childLinked (linkParentChild m p c) p c := by
  unfold linkParentChild
  constructor
  · exact (addChildEntry_preserves _ p c).links.parentLinked (addParentEntry_parentLinked hc)
  · exact addChildEntry_childLinked ((addParentEntry_preserves m p c).links.hasKey hp)

/-! ### Lemmas about the ancestry-chain loop -/

theorem hasKey_iff {m : People} {k : String} : hasKey m k ↔ (aget m k).isSome := by
  constructor
  · rintro ⟨P, hP⟩; rw [hP]; rfl
  · intro h
    cases hq : aget m k with
    | none => rw [hq] at h; cases h
    | some P => exact ⟨P, hq⟩

theorem hasKey_aset_cases {m : People} {k k' : String} {v : Person}
    (h : hasKey (aset m k v) k') : k' = k ∨ hasKey m k' := by
  by_cases he : k' = k
  · exact Or.inl he
  · obtain ⟨P, hP⟩ := h
    rw [aget_aset_of_ne m v he] at hP
    exact Or.inr ⟨P, hP⟩

theorem preservesLinks_aset_update {m : People} {k : String} {P v : Person}
    (h : aget m k = some P) (h1 : P.parents ⊆ v.parents) (h2 : P.children ⊆ v.children)
    (h3 : P.spouses ⊆ v.spouses) : PreservesLinks m (aset m k v) := by
  intro k' Q hQ
  by_cases hk : k' = k
  · subst hk
    rw [h] at hQ
    injection hQ with hQ
    subst hQ
    exact ⟨v, aget_aset_self m k' v, h1, h2, h3⟩
  · rw [aget_aset_of_ne m v hk]
    exact ⟨Q, hQ, List.Subset.refl _, List.Subset.refl _, List.Subset.refl _⟩

theorem ancestryLoop_succ_eq (f : Nat) (m : People) (cur r : String) :
    ancestryLoop (f + 1) m cur r =
      match extractParentName cur with
      | none => (m, r)
      | some parentName =>
        ancestryLoop f (linkParentChild (if (aget m parentName).isSome then m
          else aset m parentName (createPerson parentName (displayNameOf parentName)))
          parentName cur) parentName parentName := rfl

theorem ancestryLoop_succ_none {f : Nat} {m : People} {cur r : String}
    (hE : extractParentName cur = none) : ancestryLoop (f + 1) m cur r = (m, r) := by
  rw [ancestryLoop_succ_eq, hE]

theorem ancestryLoop_succ_some {f : Nat} {m : People} {cur r p : String}
    (hE : extractParentName cur = some p) :
    ancestryLoop (f + 1) m cur r =
      ancestryLoop f (linkParentChild (if (aget m p).isSome then m
        else aset m p (createPerson p (displayNameOf p))) p cur) p p := by
  rw [ancestryLoop_succ_eq, hE]

theorem ancestryLoop_preserves : ∀ (fuel : Nat) (m : People) (cur r : String),
    Preserves m (ancestryLoop fuel m cur r).1 := by
  intro fuel
  induction fuel with
  | zero => intro m cur r; exact Preserves.refl m
  | succ f ih =>
    intro m cur r
    cases hE : extractParentName cur with
    | none => rw [ancestryLoop_succ_none hE]; exact Preserves.refl m
    | some p =>
      rw [ancestryLoop_succ_some hE]
      by_cases hk : (aget m p).isSome
      · rw [if_pos hk]
        exact (linkParentChild_preserves m p cur).trans (ih _ p p)
      · rw [if_neg hk]
        have h0 : aget m p = none := by
          cases hq : aget m p with
          | none => rfl
          | some P => rw [hq] at hk; simp at hk
        exact ((preserves_aset_fresh _ h0).trans
          (linkParentChild_preserves _ p cur)).trans (ih _ p p)

theorem ancestryLoop_snd : ∀ (fuel : Nat) (m : People) (cur : String),
    (ancestryLoop fuel m cur cur).2 = chainRootAux fuel cur := by
  intro fuel
  induction fuel with
  | zero => intro m cur; rfl
  | succ f ih =>
    intro m cur
    cases hE : extractParentName cur with
    | none =>
      rw [ancestryLoop_succ_none hE]
      simp [chainRootAux, hE]
    | some p =>
      rw [ancestryLoop_succ_some hE]
      simp only [chainRootAux]
      rw [hE, ih]

theorem ancestryLoop_establishes : ∀ (fuel : Nat) (m : People) (cur r : String),
    cur.length < fuel → hasKey m cur →
    ancestryLinked (ancestryLoop fuel m cur r).1 cur ∧
    (∀ k, hasKey (ancestryLoop fuel m cur r).1 k →
      hasKey m k ∨ ancestryLinked (ancestryLoop fuel m cur r).1 k) := by
  intro fuel
  induction fuel with
  | zero => intro m cur r hlen; exact absurd hlen (Nat.not_lt_zero _)
  | succ f ih =>
    intro m cur r hlen hcur
    cases hE : extractParentName cur with
    | none =>
      rw [ancestryLoop_succ_none hE]
      refine ⟨?_, fun k hk => Or.inl hk⟩
      rw [ancestryLinked, hE]
      exact trivial
    | some p =>
      rw [ancestryLoop_succ_some hE]
      set m1 := if (aget m p).isSome then m
        else aset m p (createPerson p (displayNameOf p)) with hm1
      set m2 := linkParentChild m1 p cur with hm2
      have hplen : p.length < f := by
        have := extractParentName_length_lt hE
        omega
      have hpres1 : Preserves m m1 := by
        by_cases hk : (aget m p).isSome
        · rw [hm1, if_pos hk]; exact Preserves.refl m
        · rw [hm1, if_neg hk]
          refine preserves_aset_fresh _ ?_
          cases hq : aget m p with
          | none => rfl
          | some P => rw [hq] at hk; simp at hk
      have hkeyp1 : hasKey m1 p := by
        by_cases hk : (aget m p).isSome
        · rw [hm1, if_pos hk]; exact hasKey_iff.mpr hk
        · rw [hm1, if_neg hk]; exact ⟨_, aget_aset_self m p _⟩
      have hkeycur1 : hasKey m1 cur := hpres1.links.hasKey hcur
      have hkeyp2 : hasKey m2 p := (linkParentChild_preserves m1 p cur).links.hasKey hkeyp1
      have hlinks := linkParentChild_establishes hkeycur1 hkeyp1
      obtain ⟨hIH1, hIH2⟩ := ih m2 p p hplen hkeyp2
      have hpres3 : Preserves m2 (ancestryLoop f m2 p p).1 := ancestryLoop_preserves f m2 p p
      constructor
      · rw [ancestryLinked, hE]
        exact show parentLinked _ cur p ∧ childLinked _ p cur ∧ ancestryLinked _ p from
          ⟨hpres3.links.parentLinked hlinks.1, hpres3.links.childLinked hlinks.2, hIH1⟩
      · intro k hk
        rcases hIH2 k hk with hkm2 | hlink
        · have hkm1 : hasKey m1 k := linkParentChild_hasKey hkm2
          by_cases hkp : k = p
          · subst hkp; exact Or.inr hIH1
          · left
            by_cases hks : (aget m p).isSome
            · rw [hm1, if_pos hks] at hkm1; exact hkm1
            · rw [hm1, if_neg hks] at hkm1
              obtain ⟨P, hP⟩ := hkm1
              rw [aget_aset_of_ne m _ hkp] at hP
              exact ⟨P, hP⟩
        · exact Or.inr hlink

/-! ### Lemmas about `addPersonWithAncestry` -/

theorem buildAncestryChain_eq (people : People) (name : String) :
    buildAncestryChain people name =
      match aget (ancestryLoop (name.length + 1) people name name).1 name with
      | some person => aset (ancestryLoop (name.length + 1) people name name).1 name
          { person with rootName := (ancestryLoop (name.length + 1) people name name).2 }
      | none => (ancestryLoop (name.length + 1) people name name).1 := rfl

theorem addPerson_of_present {m : People} {n : String} (h : (aget m n).isSome) :
    addPersonWithAncestry m n = m := by
  unfold addPersonWithAncestry
  rw [if_pos h]

theorem addPerson_fresh_eq {m : People} {n : String} (h : ¬ (aget m n).isSome) :
    addPersonWithAncestry m n =
      buildAncestryChain (aset m n (createPerson n (displayNameOf n))) n := by
  unfold addPersonWithAncestry
  rw [if_neg h]

theorem addPerson_preserves (m : People) (n : String) :
    Preserves m (addPersonWithAncestry m n) := by
  by_cases h : (aget m n).isSome
  · rw [addPerson_of_present h]; exact Preserves.refl m
  · have hn : aget m n = none := by
      cases hq : aget m n with
      | none => rfl
      | some P => rw [hq] at h; simp at h
    rw [addPerson_fresh_eq h, buildAncestryChain_eq]
    have h2 : Preserves m
        (ancestryLoop (n.length + 1) (aset m n (createPerson n (displayNameOf n))) n n).1 :=
      (preserves_aset_fresh _ hn).trans (ancestryLoop_preserves _ _ n n)
    split
    · exact preserves_aset_outside _ hn h2
    · exact h2

theorem addPerson_hasKey_self (m : People) (n : String) :
    hasKey (addPersonWithAncestry m n) n := by
  by_cases h : (aget m n).isSome
  · rw [addPerson_of_present h]; exact hasKey_iff.mpr h
  · rw [addPerson_fresh_eq h, buildAncestryChain_eq]
    have hkey : hasKey
        (ancestryLoop (n.length + 1) (aset m n (createPerson n (displayNameOf n))) n n).1 n :=
      (ancestryLoop_preserves _ _ n n).links.hasKey ⟨_, aget_aset_self m n _⟩
    split
    · exact ⟨_, aget_aset_self _ n _⟩
    · rename_i hnone
      obtain ⟨P, hP⟩ := hkey
      rw [hnone] at hP
      cases hP

theorem addPerson_fresh_rootName {m : People} {n : String} (hn : aget m n = none) :
    ∃ P, aget (addPersonWithAncestry m n) n = some P ∧ P.rootName = chainRoot n := by
  have h : ¬ (aget m n).isSome := by rw [hn]; simp
  rw [addPerson_fresh_eq h, buildAncestryChain_eq]
  have hkey : hasKey
      (ancestryLoop (n.length + 1) (aset m n (createPerson n (displayNameOf n))) n n).1 n :=
    (ancestryLoop_preserves _ _ n n).links.hasKey ⟨_, aget_aset_self m n _⟩
  have hsnd : (ancestryLoop (n.length + 1) (aset m n (createPerson n (displayNameOf n))) n n).2
      = chainRoot n := by
    rw [ancestryLoop_snd]; rfl
  split
  · rename_i person hperson
    refine ⟨_, aget_aset_self _ n _, ?_⟩
    simp [hsnd]
  · rename_i hnone
    obtain ⟨P, hP⟩ := hkey
    rw [hnone] at hP
    cases hP

theorem addPerson_inv {m : People} {n : String}
    (hInv : ∀ k, hasKey m k → ancestryLinked m k) :
    ∀ k, hasKey (addPersonWithAncestry m n) k →
      ancestryLinked (addPersonWithAncestry m n) k := by
  by_cases h : (aget m n).isSome
  · rw [addPerson_of_present h]; exact hInv
  · have hn : aget m n = none := by
      cases hq : aget m n with
      | none => rfl
      | some P => rw [hq] at h; simp at h
    intro k hk
    rw [addPerson_fresh_eq h, buildAncestryChain_eq] at hk ⊢
    set m1 := aset m n (createPerson n (displayNameOf n)) with hm1def
    set res := ancestryLoop (n.length + 1) m1 n n with hres
    obtain ⟨hE1, hE2⟩ := ancestryLoop_establishes (n.length + 1) m1 n n
      (Nat.lt_succ_self _) ⟨_, aget_aset_self m n _⟩
    have hselfkey : hasKey res.1 n :=
      (ancestryLoop_preserves _ _ n n).links.hasKey ⟨_, aget_aset_self m n _⟩
    revert hk
    split
    · rename_i person hperson
      intro hk
      have hlinksfin : PreservesLinks res.1 (aset res.1 n { person with rootName := res.2 }) :=
        preservesLinks_aset_update hperson (List.Subset.refl _) (List.Subset.refl _)
          (List.Subset.refl _)
      have hkres : hasKey res.1 k := hasKey_aset_of_present ⟨person, hperson⟩ hk
      rcases hE2 k hkres with hkm1 | hlinked
      · rcases hasKey_aset_cases hkm1 with hkn | hkm
        · subst hkn
          exact hlinksfin.ancestry hE1
        · have hA : ancestryLinked m k := hInv k hkm
          have htrans : PreservesLinks m (aset res.1 n { person with rootName := res.2 }) := by
            refine ((preserves_aset_fresh _ hn).trans
              (ancestryLoop_preserves _ _ n n)).links.transLinks hlinksfin
          exact htrans.ancestry hA
      · exact hlinksfin.ancestry hlinked
    · rename_i hnone
      intro hk
      rcases hE2 k hk with hkm1 | hlinked
      · rcases hasKey_aset_cases hkm1 with hkn | hkm
        · subst hkn; exact hE1
        · have hA : ancestryLinked m k := hInv k hkm
          exact ((preserves_aset_fresh _ hn).trans
            (ancestryLoop_preserves _ _ n n)).links.ancestry hA
      · exact hlinked

theorem addPerson_ancestry_self (m : People) (n : String)
    (hInv : ∀ k, hasKey m k → ancestryLinked m k) :
    ancestryLinked (addPersonWithAncestry m n) n :=
  addPerson_inv hInv n (addPerson_hasKey_self m n)

/-! ### The per-line operations preserve the map and the chain invariant -/

/-- The resolver invariant: every person in the map has its whole implicit
ancestry chain materialized and linked. -/
def ResolverInv (m : People) : Prop := ∀ k, hasKey m k → ancestryLinked m k

theorem inv_transport {m m' : People} (hl : PreservesLinks m m')
    (hrev : ∀ k, hasKey m' k → hasKey m k) (hInv : ResolverInv m) : ResolverInv m' :=
  fun k hk => hl.ancestry (hInv k (hrev k hk))

theorem subset_addToSet (l : List String) (x : String) : l ⊆ addToSet l x := by
  unfold addToSet
  split
  · exact List.Subset.refl _
  · exact List.subset_append_left _ _

theorem addSpouseEntry_preserves (m : People) (a b : String) :
    Preserves m (addSpouseEntry m a b) := by
  unfold addSpouseEntry
  split
  · rename_i p hp
    exact preserves_aset_update hp (List.Subset.refl _) (List.Subset.refl _)
      (subset_addToSet _ _) rfl
  · exact Preserves.refl m

theorem addSpouseEntry_hasKey {m : People} {a b k : String}
    (h : hasKey (addSpouseEntry m a b) k) : hasKey m k := by
  unfold addSpouseEntry at h
  revert h
  split
  · rename_i p hp
    exact fun h => hasKey_aset_of_present ⟨p, hp⟩ h
  · exact id

theorem mem_addToSet (l : List String) (x : String) : x ∈ addToSet l x := by
  unfold addToSet
  split
  · assumption
  · exact List.mem_append_right _ (List.mem_singleton_self x)

theorem addSpouseEntry_establishes {m : People} {a b : String} (ha : hasKey m a) :
    ∃ P, aget (addSpouseEntry m a b) a = some P ∧ b ∈ P.spouses := by
  unfold addSpouseEntry
  split
  · rename_i p hp
    exact ⟨_, aget_aset_self m a _, mem_addToSet p.spouses b⟩
  · rename_i hp
    obtain ⟨P, h⟩ := ha
    rw [hp] at h
    cases h

theorem PreservesLinks.spouseMem {m m' : People} (h : PreservesLinks m m') {a b : String}
    (hs : ∃ P, aget m a = some P ∧ b ∈ P.spouses) :
    ∃ P', aget m' a = some P' ∧ b ∈ P'.spouses := by
  obtain ⟨P, hP, hb⟩ := hs
  obtain ⟨P', hP', _, _, hsub⟩ := h a P hP
  exact ⟨P', hP', hsub hb⟩

theorem processSpouses_eq (st : RState) (left right : String) :
    processSpouses st left right =
      (if (if right < left then right ++ "+" ++ left else left ++ "+" ++ right)
          ∈ st.spouseRelations
      then { st with
             people := addPersonWithAncestry (addPersonWithAncestry st.people left) right }
      else { people := addSpouseEntry (addSpouseEntry
               (addPersonWithAncestry (addPersonWithAncestry st.people left) right)
               left right) right left
             spouseRelations := st.spouseRelations ++
               [if right < left then right ++ "+" ++ left else left ++ "+" ++ right]
             mothers := addToSet st.mothers right }) := rfl

theorem processSpouses_preserves (st : RState) (l r : String) :
    Preserves st.people (processSpouses st l r).people := by
  rw [processSpouses_eq]
  have h12 : Preserves st.people (addPersonWithAncestry (addPersonWithAncestry st.people l) r) :=
    (addPerson_preserves _ l).trans (addPerson_preserves _ r)
  split <;> split
  · exact h12
  · exact (h12.trans (addSpouseEntry_preserves _ l r)).trans (addSpouseEntry_preserves _ r l)
  · exact h12
  · exact (h12.trans (addSpouseEntry_preserves _ l r)).trans (addSpouseEntry_preserves _ r l)

theorem processSpouses_inv (st : RState) (l r : String) (hInv : ResolverInv st.people) :
    ResolverInv (processSpouses st l r).people := by
  rw [processSpouses_eq]
  have hinv2 : ResolverInv (addPersonWithAncestry (addPersonWithAncestry st.people l) r) :=
    addPerson_inv (addPerson_inv hInv)
  split <;> split
  · exact hinv2
  · refine inv_transport ?_ ?_ hinv2
    · exact ((addSpouseEntry_preserves _ l r).trans (addSpouseEntry_preserves _ r l)).links
    · exact fun k hk => addSpouseEntry_hasKey (addSpouseEntry_hasKey hk)
  · exact hinv2
  · refine inv_transport ?_ ?_ hinv2
    · exact ((addSpouseEntry_preserves _ l r).trans (addSpouseEntry_preserves _ r l)).links
    · exact fun k hk => addSpouseEntry_hasKey (addSpouseEntry_hasKey hk)

theorem processSpouses_preserves_from_added (st : RState) (l r : String) :
    Preserves (addPersonWithAncestry (addPersonWithAncestry st.people l) r)
      (processSpouses st l r).people := by
  rw [processSpouses_eq]
  split <;> split
  · exact Preserves.refl _
  · exact (addSpouseEntry_preserves _ l r).trans (addSpouseEntry_preserves _ r l)
  · exact Preserves.refl _
  · exact (addSpouseEntry_preserves _ l r).trans (addSpouseEntry_preserves _ r l)

theorem processSpouses_people_fresh {st : RState} {left right : String}
    (hkey : (if right < left then right ++ "+" ++ left else left ++ "+" ++ right)
      ∉ st.spouseRelations) :
    (processSpouses st left right).people =
      addSpouseEntry (addSpouseEntry
        (addPersonWithAncestry (addPersonWithAncestry st.people left) right) left right)
        right left := by
  rw [processSpouses_eq, if_neg hkey]

theorem processChild_eq (st : RState) (child : String) :
    processChild st child =
      (match findExistingParent (addPersonWithAncestry st.people child) child st.mothers with
      | some potentialParent =>
        if potentialParent = ""
        then { st with people := addPersonWithAncestry st.people child }
        else { st with people :=
                 (linkParentChild (addPersonWithAncestry st.people child)
                   potentialParent child) }
      | none => { st with people := addPersonWithAncestry st.people child }) := rfl

theorem processChild_preserves_from_added (st : RState) (child : String) :
    Preserves (addPersonWithAncestry st.people child) (processChild st child).people := by
  rw [processChild_eq]
  split
  · rename_i potentialParent hfind
    split
    · exact Preserves.refl _
    · exact linkParentChild_preserves _ potentialParent child
  · exact Preserves.refl _

theorem processChild_preserves (st : RState) (child : String) :
    Preserves st.people (processChild st child).people :=
  (addPerson_preserves _ child).trans (processChild_preserves_from_added st child)

theorem processChild_inv (st : RState) (child : String) (hInv : ResolverInv st.people) :
    ResolverInv (processChild st child).people := by
  have hinv1 : ResolverInv (addPersonWithAncestry st.people child) := addPerson_inv hInv
  rw [processChild_eq]
  split
  · rename_i potentialParent hfind
    split
    · exact hinv1
    · refine inv_transport (linkParentChild_preserves _ potentialParent child).links
        (fun k hk => linkParentChild_hasKey hk) hinv1
  · exact hinv1

theorem processLine_eq (st : RState) (rawLine : String) :
    processLine st rawLine =
      (if jsTrim rawLine = "" then st
      else if jsContains (jsTrim rawLine) '+' then
        match (jsSplit '+' (jsTrim rawLine)).map jsTrim with
        | left :: right :: _ => processSpouses st left right
        | _ => st
      else processChild st (jsTrim rawLine)) := rfl

theorem processLine_preserves (st : RState) (line : String) :
    Preserves st.people (processLine st line).people := by
  rw [processLine_eq]
  split
  · exact Preserves.refl _
  · split
    · split
      · exact processSpouses_preserves st _ _
      · exact Preserves.refl _
    · exact processChild_preserves st _

theorem processLine_inv (st : RState) (line : String) (hInv : ResolverInv st.people) :
    ResolverInv (processLine st line).people := by
  rw [processLine_eq]
  split
  · exact hInv
  · split
    · split
      · exact processSpouses_inv st _ _ hInv
      · exact hInv
    · exact processChild_inv st _ hInv

theorem foldl_processLine_preserves (lines : List String) (st : RState) :
    Preserves st.people (lines.foldl processLine st).people := by
  induction lines generalizing st with
  | nil => exact Preserves.refl _
  | cons l rest ih =>
    rw [List.foldl_cons]
    exact (processLine_preserves st l).trans (ih (processLine st l))

theorem foldl_processLine_inv (lines : List String) (st : RState)
    (hInv : ResolverInv st.people) : ResolverInv (lines.foldl processLine st).people := by
  induction lines generalizing st with
  | nil => exact hInv
  | cons l rest ih =>
    rw [List.foldl_cons]
    exact ih (processLine st l) (processLine_inv st l hInv)

theorem resolveLines_inv (lines : List String) : ResolverInv (resolveLines lines).people := by
  refine foldl_processLine_inv lines initialState ?_
  intro k hk
  obtain ⟨P, hP⟩ := hk
  cases hP

/-- A descent line (non-blank, no separator) dispatches to `processChild`. -/
theorem processLine_descent {st : RState} {rawLine n : String}
    (htrim : jsTrim rawLine = n) (hne : n ≠ "") (hplus : jsContains n '+' = false) :
    processLine st rawLine = processChild st n := by
  rw [processLine_eq, htrim, if_neg hne, hplus]
  simp

/-! ### The spouse-child inheritance closure -/

theorem inheritToSpouse_preserves (m : People) (c s : String) :
    Preserves m (inheritToSpouse m c s) := by
  unfold inheritToSpouse
  split
  · rename_i p hp
    split
    · exact Preserves.refl m
    · exact preserves_aset_update hp (List.Subset.refl _) (List.subset_append_left _ _)
        (List.Subset.refl _) rfl
  · exact Preserves.refl m

theorem inheritToSpouse_establishes {m : People} {c s : String} (hs : hasKey m s) :
    childLinked (inheritToSpouse m c s) s c := by
  unfold inheritToSpouse
  split
  · rename_i p hp
    split
    · rename_i hmem
      exact ⟨p, hp, hmem⟩
    · exact ⟨_, aget_aset_self m s _, by simp⟩
  · rename_i hp
    obtain ⟨P, h⟩ := hs
    rw [hp] at h
    cases h

theorem spousesFold_preserves (sps : List String) (c : String) (m : People) :
    Preserves m (sps.foldl (fun a s => inheritToSpouse a c s) m) := by
  induction sps generalizing m with
  | nil => exact Preserves.refl m
  | cons hd tl ih =>
    rw [List.foldl_cons]
    exact (inheritToSpouse_preserves m c hd).trans (ih _)

theorem spousesFold_establishes {sps : List String} {c s : String} {m : People}
    (hs : s ∈ sps) (hkey : hasKey m s) :
    childLinked (sps.foldl (fun a s' => inheritToSpouse a c s') m) s c := by
  induction sps generalizing m with
  | nil => cases hs
  | cons hd tl ih =>
    rw [List.foldl_cons]
    rcases List.mem_cons.mp hs with rfl | hmem
    · exact (spousesFold_preserves tl c _).links.childLinked (inheritToSpouse_establishes hkey)
    · exact ih hmem ((inheritToSpouse_preserves m c hd).links.hasKey hkey)

theorem childrenFold_preserves (children sps : List String) (m : People) :
    Preserves m (children.foldl
      (fun acc child => sps.foldl (fun a s => inheritToSpouse a child s) acc) m) := by
  induction children generalizing m with
  | nil => exact Preserves.refl m
  | cons hd tl ih =>
    rw [List.foldl_cons]
    exact (spousesFold_preserves sps hd m).trans (ih _)

theorem childrenFold_establishes {children sps : List String} {c s : String} {m : People}
    (hc : c ∈ children) (hs : s ∈ sps) (hkey : hasKey m s) :
    childLinked (children.foldl
      (fun acc child => sps.foldl (fun a s' => inheritToSpouse a child s') acc) m) s c := by
  induction children generalizing m with
  | nil => cases hc
  | cons hd tl ih =>
    rw [List.foldl_cons]
    rcases List.mem_cons.mp hc with rfl | hmem
    · exact (childrenFold_preserves tl sps _).links.childLinked
        (spousesFold_establishes hs hkey)
    · exact ih hmem ((spousesFold_preserves sps hd m).links.hasKey hkey)

theorem inheritFromPerson_eq_some {m : People} {name : String} {person : Person}
    (h : aget m name = some person) :
    inheritFromPerson m name = person.children.foldl
      (fun acc child => person.spouses.foldl
        (fun acc2 s => inheritToSpouse acc2 child s) acc) m := by
  unfold inheritFromPerson
  rw [h]

theorem inheritFromPerson_preserves (m : People) (name : String) :
    Preserves m (inheritFromPerson m name) := by
  unfold inheritFromPerson
  split
  · rename_i person h
    exact childrenFold_preserves person.children person.spouses m
  · exact Preserves.refl m

theorem foldl_inheritFromPerson_preserves (ks : List String) (m : People) :
    Preserves m (ks.foldl inheritFromPerson m) := by
  induction ks generalizing m with
  | nil => exact Preserves.refl m
  | cons hd tl ih =>
    rw [List.foldl_cons]
    exact (inheritFromPerson_preserves m hd).trans (ih _)

theorem inheritanceClosure_preserves (m : People) :
    Preserves m (inheritanceClosure m) :=
  foldl_inheritFromPerson_preserves _ m

theorem aget_mem_keys {m : People} {k : String} {P : Person} (h : aget m k = some P) :
    k ∈ m.map (fun e => e.1) := by
  induction m with
  | nil => cases h
  | cons e rest ih =>
    obtain ⟨k0, v0⟩ := e
    simp only [aget] at h
    by_cases he : k0 = k
    · subst he; exact List.mem_cons_self _ _
    · rw [if_neg he] at h
      exact List.mem_cons_of_mem _ (ih h)

theorem inheritanceClosure_establishes {m : People} {name : String} {P : Person}
    (hP : aget m name = some P) {C S : String} (hC : C ∈ P.children) (hS : S ∈ P.spouses)
    (hSkey : hasKey m S) : childLinked (inheritanceClosure m) S C := by
  unfold inheritanceClosure
  obtain ⟨l1, l2, hsplit⟩ := List.append_of_mem (aget_mem_keys hP)
  rw [hsplit, List.foldl_append, List.foldl_cons]
  have hpresA : Preserves m (List.foldl inheritFromPerson m l1) :=
    foldl_inheritFromPerson_preserves l1 m
  obtain ⟨PA, hPA, _, hcs, hss, _⟩ := hpresA name P hP
  have hmid : childLinked (inheritFromPerson (List.foldl inheritFromPerson m l1) name) S C := by
    rw [inheritFromPerson_eq_some hPA]
    exact childrenFold_establishes (hcs hC) (hss hS) (hpresA.links.hasKey hSkey)
  exact (foldl_inheritFromPerson_preserves l2 _).links.childLinked hmid

/-! ### The closure never duplicates a child entry -/

theorem nodup_append_singleton {l : List String} {c : String}
    (h : l.Nodup) (hc : c ∉ l) : (l ++ [c]).Nodup := by
  rw [List.nodup_append]
  exact ⟨h, List.nodup_singleton c, by simpa using hc⟩

theorem inheritToSpouse_nodup {m : People} {c s k : String}
    (h : ∀ Q, aget m k = some Q → Q.children.Nodup) :
    ∀ Q, aget (inheritToSpouse m c s) k = some Q → Q.children.Nodup := by
  unfold inheritToSpouse
  split
  · rename_i p hp
    split
    · exact h
    · rename_i hmem
      intro Q hQ
      by_cases he : k = s
      · subst he
        rw [aget_aset_self] at hQ
        injection hQ with hQ
        subst hQ
        simp only
        exact nodup_append_singleton (h p hp) hmem
      · rw [aget_aset_of_ne _ _ he] at hQ
        exact h Q hQ
  · exact h

theorem spousesFold_nodup {sps : List String} {c k : String} {m : People}
    (h : ∀ Q, aget m k = some Q → Q.children.Nodup) :
    ∀ Q, aget (sps.foldl (fun a s => inheritToSpouse a c s) m) k = some Q →
      Q.children.Nodup := by
  induction sps generalizing m with
  | nil => exact h
  | cons hd tl ih =>
    rw [List.foldl_cons]
    exact ih (inheritToSpouse_nodup h)

theorem childrenFold_nodup {children sps : List String} {k : String} {m : People}
    (h : ∀ Q, aget m k = some Q → Q.children.Nodup) :
    ∀ Q, aget (children.foldl
      (fun acc child => sps.foldl (fun a s => inheritToSpouse a child s) acc) m) k = some Q →
      Q.children.Nodup := by
  induction children generalizing m with
  | nil => exact h
  | cons hd tl ih =>
    rw [List.foldl_cons]
    exact ih (spousesFold_nodup h)

theorem inheritFromPerson_nodup {m : People} {name k : String}
    (h : ∀ Q, aget m k = some Q → Q.children.Nodup) :
    ∀ Q, aget (inheritFromPerson m name) k = some Q → Q.children.Nodup := by
  unfold inheritFromPerson
  split
  · rename_i person hperson
    exact childrenFold_nodup h
  · exact h

theorem inheritanceClosure_nodup {m : People} {k : String}
    (h : ∀ Q, aget m k = some Q → Q.children.Nodup) :
    ∀ Q, aget (inheritanceClosure m) k = some Q → Q.children.Nodup := by
  unfold inheritanceClosure
  generalize m.map (fun e => e.1) = ks
  induction ks generalizing m with
  | nil => exact h
  | cons hd tl ih =>
    rw [List.foldl_cons]
    exact ih (inheritFromPerson_nodup h)

/-! ### Remaining helpers for the claim theorems -/

theorem preserves_rootName {m m' : People} (h : Preserves m m') {k : String} {P : Person}
    (hP : aget m k = some P) :
    ∃ P', aget m' k = some P' ∧ P'.rootName = P.rootName := by
  obtain ⟨P', h1, _, _, _, h4⟩ := h k P hP
  exact ⟨P', h1, h4⟩

theorem chainRootAux_succ (f : Nat) (name : String) :
    chainRootAux (f + 1) name =
      match extractParentName name with
      | none => name
      | some p => chainRootAux f p := rfl

theorem chainRoot_three {n n1 n2 : String} (h1 : extractParentName n = some n1)
    (h2 : extractParentName n1 = some n2) (h3 : extractParentName n2 = none) :
    chainRoot n = n2 := by
  have d1 := extractParentName_length_lt h1
  have d2 := extractParentName_length_lt h2
  obtain ⟨b, hb⟩ : ∃ b, n.length = b + 2 := ⟨n.length - 2, by omega⟩
  unfold chainRoot
  rw [hb]
  rw [chainRootAux_succ, h1]
  show chainRootAux (b + 1 + 1) n1 = n2
  rw [chainRootAux_succ, h2]
  show chainRootAux (b + 1) n2 = n2
  rw [chainRootAux_succ, h3]

theorem resolveLines_append (pre post : List String) (l : String) :
    resolveLines (pre ++ l :: post) =
      post.foldl processLine (processLine (resolveLines pre) l) := by
  unfold resolveLines
  rw [List.foldl_append, List.foldl_cons]

theorem processChild_ancestry (st : RState) (n : String) (hInv : ResolverInv st.people) :
    ancestryLinked (processChild st n).people n :=
  (processChild_preserves_from_added st n).links.ancestry
    (addPerson_ancestry_self st.people n hInv)

theorem ancestryLinked_two_steps {m : People} {n n1 n2 : String}
    (hA : ancestryLinked m n) (h1 : extractParentName n = some n1)
    (h2 : extractParentName n1 = some n2) :
    parentLinked m n n1 ∧ childLinked m n1 n ∧ parentLinked m n1 n2 ∧ childLinked m n2 n1 := by
  rw [ancestryLinked, h1] at hA
  obtain ⟨a1, a2, a3⟩ :
      parentLinked m n n1 ∧ childLinked m n1 n ∧ ancestryLinked m n1 := hA
  rw [ancestryLinked, h2] at a3
  obtain ⟨b1, b2, _⟩ :
      parentLinked m n1 n2 ∧ childLinked m n2 n1 ∧ ancestryLinked m n2 := a3
  exact ⟨a1, a2, b1, b2⟩

theorem addParentEntry_eq_some {m : People} {c : String} {C : Person}
    (h : aget m c = some C) (p : String) :
    addParentEntry m p c =
      (if p ∈ C.parents then m
      else aset m c { C with parents := C.parents ++ [p] }) := by
  unfold addParentEntry
  rw [h]

theorem addChildEntry_eq_some {m : People} {p : String} {P : Person}
    (h : aget m p = some P) (c : String) :
    addChildEntry m p c =
      (if c ∈ P.children then m
      else aset m p { P with children := P.children ++ [c] }) := by
  unfold addChildEntry
  rw [h]

theorem addChildEntry_parents (m : People) (p c k : String) :
    (aget (addChildEntry m p c) k).map Person.parents = (aget m k).map Person.parents := by
  unfold addChildEntry
  split
  · rename_i P hP
    split
    · rfl
    · by_cases he : k = p
      · subst he
        rw [aget_aset_self, hP]
        rfl
      · rw [aget_aset_of_ne _ _ he]
  · rfl

theorem findExistingParent_eq {m : People} {child : String} {P : Person}
    (hP : aget m child = some P) (hne : P.parents ≠ []) (hnz : "" ∉ P.parents)
    (mothers : List String) :
    findExistingParent m child mothers =
      some ((P.parents.find? (fun p => mothers.contains p)).getD (P.parents.headD "")) := by
  have hie : P.parents.isEmpty = false := by
    cases hq : P.parents with
    | nil => exact absurd hq hne
    | cons a l => rfl
  unfold findExistingParent
  rw [hP]
  show (if P.parents.isEmpty = true then none
    else match P.parents.find? (fun p => mothers.contains p) with
      | some p => if p = "" then P.parents.head? else some p
      | none => P.parents.head?)
    = some ((P.parents.find? (fun p => mothers.contains p)).getD (P.parents.headD ""))
  rw [hie, if_neg Bool.false_ne_true]
  cases hfind : P.parents.find? (fun p => mothers.contains p) with
  | some p =>
    have hmem : p ∈ P.parents := List.mem_of_find?_eq_some hfind
    have hpne : ¬ p = "" := fun he => hnz (he ▸ hmem)
    simp [hpne]
  | none =>
    cases hq : P.parents with
    | nil => exact absurd hq hne
    | cons a l => simp [hq]

/-! ### Claim theorems: the relationship resolver -/

/-- C1 (counterexample): the batch `["invalid+format+here", "John Smith"]`
is not rejected: the malformed line's first two `+`-segments enter the
graph as a spouse pair, contradicting "resolve rejects that line with a
MalformedUnionError". -/
theorem claim1_counterexample :
    ∃ P, aget (generateTreePeople ["invalid+format+here", "John Smith"]) "invalid" = some P ∧
      "format" ∈ P.spouses :=
  ⟨_, rfl, by decide⟩

/-- C1 (amended): every line whose trimmed content contains the union
separator two or more times (its `+`-split has trimmed segments
`left :: right :: rest` with `rest` non-empty) is not rejected and raises
no error: regardless of the current state it is processed as the union of
`left` and `right`, the remaining segments discarded; batch processing
continues with the remaining lines exactly as from that union's result
state (no abort, no crash), both participants are materialized into the
final graph, and — whenever the unordered pair is new at that point — they
end up recorded as spouses of each other. -/
theorem claim1_malformed_union_behavior (pre post : List String) (l left right : String)
    (rest : List String) (hrest : rest ≠ [])
    (hplus : jsContains (jsTrim l) '+' = true)
    (hsplit : (jsSplit '+' (jsTrim l)).map jsTrim = left :: right :: rest) :
    (∀ st : RState, processLine st l = processSpouses st left right) ∧
    resolveLines (pre ++ l :: post) =
      post.foldl processLine (processSpouses (resolveLines pre) left right) ∧
    hasKey (generateTreePeople (pre ++ l :: post)) left ∧
    hasKey (generateTreePeople (pre ++ l :: post)) right ∧
    ((if right < left then right ++ "+" ++ left else left ++ "+" ++ right)
        ∉ (resolveLines pre).spouseRelations →
      (∃ P, aget (generateTreePeople (pre ++ l :: post)) left = some P ∧
        right ∈ P.spouses) ∧
      (∃ Q, aget (generateTreePeople (pre ++ l :: post)) right = some Q ∧
        left ∈ Q.spouses)) := by
  have hne : ¬ jsTrim l = "" := by
    intro h0
    rw [h0] at hplus
    exact absurd hplus (by decide)
  have ha : ∀ st : RState, processLine st l = processSpouses st left right := by
    intro st
    rw [processLine_eq, if_neg hne, hplus, if_pos rfl, hsplit]
  have hb : resolveLines (pre ++ l :: post) =
      post.foldl processLine (processSpouses (resolveLines pre) left right) := by
    rw [resolveLines_append, ha]
  have hkl : hasKey (addPersonWithAncestry
      (addPersonWithAncestry (resolveLines pre).people left) right) left :=
    (addPerson_preserves _ right).links.hasKey
      (addPerson_hasKey_self (resolveLines pre).people left)
  have hkr : hasKey (addPersonWithAncestry
      (addPersonWithAncestry (resolveLines pre).people left) right) right :=
    addPerson_hasKey_self _ right
  have hpres_line : Preserves
      (addPersonWithAncestry (addPersonWithAncestry (resolveLines pre).people left) right)
      (processSpouses (resolveLines pre) left right).people :=
    processSpouses_preserves_from_added (resolveLines pre) left right
  have hpres_final : Preserves (processSpouses (resolveLines pre) left right).people
      (generateTreePeople (pre ++ l :: post)) := by
    unfold generateTreePeople
    rw [hb]
    exact (foldl_processLine_preserves post _).trans (inheritanceClosure_preserves _)
  refine ⟨ha, hb,
    hpres_final.links.hasKey (hpres_line.links.hasKey hkl),
    hpres_final.links.hasKey (hpres_line.links.hasKey hkr), ?_⟩
  intro hkey
  have hpeople : (processSpouses (resolveLines pre) left right).people =
      addSpouseEntry (addSpouseEntry
        (addPersonWithAncestry (addPersonWithAncestry (resolveLines pre).people left) right)
        left right) right left :=
    processSpouses_people_fresh hkey
  have s1 : ∃ P, aget (addSpouseEntry (addSpouseEntry
      (addPersonWithAncestry (addPersonWithAncestry (resolveLines pre).people left) right)
      left right) right left) left = some P ∧ right ∈ P.spouses :=
    (addSpouseEntry_preserves _ right left).links.spouseMem (addSpouseEntry_establishes hkl)
  have s2 : ∃ Q, aget (addSpouseEntry (addSpouseEntry
      (addPersonWithAncestry (addPersonWithAncestry (resolveLines pre).people left) right)
      left right) right left) right = some Q ∧ left ∈ Q.spouses :=
    addSpouseEntry_establishes ((addSpouseEntry_preserves _ left right).links.hasKey hkr)
  constructor
  · refine hpres_final.links.spouseMem ?_
    rw [hpeople]
    exact s1
  · refine hpres_final.links.spouseMem ?_
    rw [hpeople]
    exact s2

/-- C1 (witness): the batch `["invalid+format+here", "John Smith"]` — the
malformed line becomes the union invalid+format ("here" discarded), and
the other line still resolves with its synthesized root "Smith". -/
theorem claim1_witness :
    ((["here"] : List String) ≠ [] ∧
      jsContains (jsTrim "invalid+format+here") '+' = true ∧
      (jsSplit '+' (jsTrim "invalid+format+here")).map jsTrim
        = ["invalid", "format", "here"] ∧
      (if "format" < "invalid" then "format" ++ "+" ++ "invalid"
        else "invalid" ++ "+" ++ "format") ∉ (resolveLines []).spouseRelations) ∧
    (∃ P, aget (generateTreePeople ["invalid+format+here", "John Smith"]) "invalid" = some P
      ∧ "format" ∈ P.spouses) ∧
    (∃ Q, aget (generateTreePeople ["invalid+format+here", "John Smith"]) "format" = some Q
      ∧ "invalid" ∈ Q.spouses) ∧
    hasKey (generateTreePeople ["invalid+format+here", "John Smith"]) "invalid" ∧
    (generateTreePeople ["invalid+format+here", "John Smith"]).map (fun e => e.1)
      = ["invalid", "format", "John Smith", "Smith"] ∧
    (∃ R, aget (generateTreePeople ["invalid+format+here", "John Smith"]) "John Smith" = some R
      ∧ R.rootName = "Smith") := by
  have h := claim1_malformed_union_behavior [] ["John Smith"] "invalid+format+here"
    "invalid" "format" ["here"] (by decide) (by rfl) (by rfl)
  obtain ⟨-, -, hk1, -, himp⟩ := h
  obtain ⟨hsp1, hsp2⟩ := himp (by decide)
  exact ⟨⟨by decide, rfl, rfl, by decide⟩, hsp1, hsp2, hk1, by decide, ⟨_, rfl, by decide⟩⟩

/-- C2 (counterexample): in the batch `["X A B C", "A B C"]` the second
line is a three-token descent line "A B C", yet its `rootName` is
"A B C", not "C" — the person pre-existed as a synthesized ancestor of
"X A B C", and `buildAncestryChain` never updates an intermediate's root. -/
theorem claim2_counterexample :
    ∃ P, aget (generateTreePeople ["X A B C", "A B C"]) "A B C" = some P ∧
      ¬ P.rootName = "C" :=
  ⟨_, rfl, by decide⟩

/-- C2 (amended): for every descent line whose trimmed content is a
three-token name `n` (chain `n → n1 → n2`, `n2` a root), after resolve the
people map contains `n1` and `n2` and the links `n2` parent-of `n1` and
`n1` parent-of `n` exist in both directions; `rootFullName n = n2` holds
provided `n` was not already in the people map when the line was processed
(it can pre-exist as a synthesized ancestor of a longer name, in which case
its root name remains `n` itself). -/
theorem claim2_ancestry_chain (pre post : List String) (n n1 n2 : String)
    (htrim : jsTrim n = n) (hne : n ≠ "") (hplus : jsContains n '+' = false)
    (h1 : extractParentName n = some n1) (h2 : extractParentName n1 = some n2)
    (h3 : extractParentName n2 = none) :
    hasKey (generateTreePeople (pre ++ n :: post)) n1 ∧
    hasKey (generateTreePeople (pre ++ n :: post)) n2 ∧
    parentLinked (generateTreePeople (pre ++ n :: post)) n n1 ∧
    childLinked (generateTreePeople (pre ++ n :: post)) n1 n ∧
    parentLinked (generateTreePeople (pre ++ n :: post)) n1 n2 ∧
    childLinked (generateTreePeople (pre ++ n :: post)) n2 n1 ∧
    (aget (resolveLines pre).people n = none →
      ∃ P, aget (generateTreePeople (pre ++ n :: post)) n = some P ∧ P.rootName = n2) := by
  have hInv : ResolverInv (resolveLines pre).people := resolveLines_inv pre
  have hline : processLine (resolveLines pre) n = processChild (resolveLines pre) n :=
    processLine_descent htrim hne hplus
  have hAn : ancestryLinked (processChild (resolveLines pre) n).people n :=
    processChild_ancestry (resolveLines pre) n hInv
  have e1 : resolveLines (pre ++ n :: post) =
      post.foldl processLine (processChild (resolveLines pre) n) := by
    rw [resolveLines_append, hline]
  have hfinalpres : Preserves (processChild (resolveLines pre) n).people
      (generateTreePeople (pre ++ n :: post)) := by
    unfold generateTreePeople
    rw [e1]
    exact (foldl_processLine_preserves post _).trans (inheritanceClosure_preserves _)
  have hAfinal : ancestryLinked (generateTreePeople (pre ++ n :: post)) n :=
    hfinalpres.links.ancestry hAn
  obtain ⟨a1, a2, b1, b2⟩ := ancestryLinked_two_steps hAfinal h1 h2
  have hk1 : hasKey (generateTreePeople (pre ++ n :: post)) n1 :=
    let ⟨C1, hC1, _⟩ := b1; ⟨C1, hC1⟩
  have hk2 : hasKey (generateTreePeople (pre ++ n :: post)) n2 :=
    let ⟨C2, hC2, _⟩ := b2; ⟨C2, hC2⟩
  refine ⟨hk1, hk2, a1, a2, b1, b2, ?_⟩
  intro hfresh
  obtain ⟨P, hP, hroot⟩ := addPerson_fresh_rootName hfresh
  have hpres : Preserves (addPersonWithAncestry (resolveLines pre).people n)
      (generateTreePeople (pre ++ n :: post)) :=
    (processChild_preserves_from_added (resolveLines pre) n).trans hfinalpres
  obtain ⟨P', hP', hr'⟩ := preserves_rootName hpres hP
  exact ⟨P', hP', by rw [hr', hroot, chainRoot_three h1 h2 h3]⟩

/-- C2 (witness): the single-line batch `["A B C"]`. -/
theorem claim2_witness :
    (jsTrim "A B C" = "A B C" ∧ "A B C" ≠ "" ∧ jsContains "A B C" '+' = false ∧
      extractParentName "A B C" = some "B C" ∧ extractParentName "B C" = some "C" ∧
      extractParentName "C" = none ∧ aget (resolveLines []).people "A B C" = none) ∧
    parentLinked (generateTreePeople ["A B C"]) "A B C" "B C" ∧
    childLinked (generateTreePeople ["A B C"]) "B C" "A B C" ∧
    parentLinked (generateTreePeople ["A B C"]) "B C" "C" ∧
    childLinked (generateTreePeople ["A B C"]) "C" "B C" ∧
    (∃ P, aget (generateTreePeople ["A B C"]) "A B C" = some P ∧ P.rootName = "C") := by
  have h := claim2_ancestry_chain [] [] "A B C" "B C" "C" (by rfl) (by decide) (by rfl)
    (by rfl) (by rfl) (by rfl)
  exact ⟨⟨rfl, by decide, rfl, rfl, rfl, rfl, rfl⟩,
    h.2.2.1, h.2.2.2.1, h.2.2.2.2.1, h.2.2.2.2.2.1, h.2.2.2.2.2.2 rfl⟩

/-- C3: after all lines are processed, the single inheritance-closure pass
guarantees that every child of a person is in each of that person's
spouses' child lists, and the pass never duplicates a child entry. -/
theorem claim3_spouse_child_inheritance (lines : List String) :
    (∀ (name : String) (P : Person) (C S : String),
      aget (resolveLines lines).people name = some P →
      C ∈ P.children → S ∈ P.spouses → hasKey (resolveLines lines).people S →
      childLinked (generateTreePeople lines) S C) ∧
    (∀ (k : String) (Q : Person), aget (resolveLines lines).people k = some Q →
      Q.children.Nodup →
      ∃ Q', aget (generateTreePeople lines) k = some Q' ∧ Q'.children.Nodup) := by
  constructor
  · intro name P C S hP hC hS hSkey
    exact inheritanceClosure_establishes hP hC hS hSkey
  · intro k Q hQ hnod
    have hall : ∀ R, aget (resolveLines lines).people k = some R → R.children.Nodup := by
      intro R hR
      rw [hQ] at hR
      injection hR with hR
      exact hR ▸ hnod
    obtain ⟨Q', hQ', _, _, _, _⟩ := inheritanceClosure_preserves (resolveLines lines).people k Q hQ
    exact ⟨Q', hQ', inheritanceClosure_nodup hall Q' hQ'⟩

/-- C3 (witness): `["X + Y", "Z X"]` — after the closure, "Z X" appears in
"Y"'s children as well as "X"'s. -/
theorem claim3_witness :
    (∃ P, aget (resolveLines ["X + Y", "Z X"]).people "X" = some P ∧
      "Z X" ∈ P.children ∧ "Y" ∈ P.spouses) ∧
    hasKey (resolveLines ["X + Y", "Z X"]).people "Y" ∧
    childLinked (generateTreePeople ["X + Y", "Z X"]) "Y" "Z X" ∧
    childLinked (generateTreePeople ["X + Y", "Z X"]) "X" "Z X" := by
  refine ⟨⟨_, rfl, by decide, by decide⟩, ⟨_, rfl⟩, ?_, ⟨_, rfl, by decide⟩⟩
  exact (claim3_spouse_child_inheritance ["X + Y", "Z X"]).1 "X" _ "Z X" "Y" rfl
    (by decide) (by decide) ⟨_, rfl⟩

/-- C4: for a descent line naming `child`, when the materialized person has
a non-empty parent list, the linked parent is the first parent found in the
second-spouse marker set (`mothers`), falling back to the first-listed
parent; the bidirectional link is idempotent: the child's parent list is
unchanged (the chosen parent is already in it) and the parent's child list
gains the child only if absent. -/
theorem claim4_primary_parent (st : RState) (child : String) (P : Person)
    (hP : aget (addPersonWithAncestry st.people child) child = some P)
    (hne : P.parents ≠ []) (hnz : "" ∉ P.parents) :
    ∃ chosen,
      findExistingParent (addPersonWithAncestry st.people child) child st.mothers
        = some chosen ∧
      chosen = (P.parents.find? (fun p => st.mothers.contains p)).getD (P.parents.headD "") ∧
      chosen ∈ P.parents ∧
      processChild st child = { st with people :=
        (linkParentChild (addPersonWithAncestry st.people child) chosen child) } ∧
      (∃ P', aget (processChild st child).people child = some P' ∧ P'.parents = P.parents) ∧
      (∀ Q, aget (addPersonWithAncestry st.people child) chosen = some Q →
        ∃ Q', aget (processChild st child).people chosen = some Q' ∧
          Q'.children = (if child ∈ Q.children then Q.children else Q.children ++ [child])) := by
  set m1 := addPersonWithAncestry st.people child with hm1
  set chosen := (P.parents.find? (fun p => st.mothers.contains p)).getD (P.parents.headD "")
    with hchosen
  have hfind : findExistingParent m1 child st.mothers = some chosen :=
    findExistingParent_eq hP hne hnz st.mothers
  have hchmem : chosen ∈ P.parents := by
    rw [hchosen]
    cases hf : P.parents.find? (fun p => st.mothers.contains p) with
    | some p => exact List.mem_of_find?_eq_some hf
    | none =>
      cases hq : P.parents with
      | nil => exact absurd hq hne
      | cons a l => simp [hq]
  have hchne : ¬ chosen = "" := fun he => hnz (he ▸ hchmem)
  have heq : processChild st child = { st with people := linkParentChild m1 chosen child } := by
    rw [processChild_eq, hfind]
    simp [hchne]
  have hnoop : addParentEntry m1 chosen child = m1 := by
    rw [addParentEntry_eq_some hP chosen, if_pos hchmem]
  have hlink : linkParentChild m1 chosen child = addChildEntry m1 chosen child := by
    unfold linkParentChild
    rw [hnoop]
  refine ⟨chosen, hfind, rfl, hchmem, heq, ?_, ?_⟩
  · have hmap := addChildEntry_parents m1 chosen child child
    rw [hP] at hmap
    rw [heq]
    show ∃ P', aget (linkParentChild m1 chosen child) child = some P' ∧ P'.parents = P.parents
    rw [hlink]
    cases hq : aget (addChildEntry m1 chosen child) child with
    | none => rw [hq] at hmap; cases hmap
    | some P' =>
      rw [hq] at hmap
      injection hmap with hmap
      exact ⟨P', rfl, hmap⟩
  · intro Q hQ
    rw [heq]
    show ∃ Q', aget (linkParentChild m1 chosen child) chosen = some Q' ∧
      Q'.children = (if child ∈ Q.children then Q.children else Q.children ++ [child])
    rw [hlink, addChildEntry_eq_some hQ child]
    by_cases hc : child ∈ Q.children
    · rw [if_pos hc]
      exact ⟨Q, hQ, by rw [if_pos hc]⟩
    · rw [if_neg hc]
      exact ⟨_, aget_aset_self _ chosen _, by rw [if_neg hc]⟩

/-- C4 (witness): for `["John Smith + Mary Jones"]` then the descent line
"Sarah John Smith", the chosen parent is "John Smith" (its only parent;
the `mothers` set {"Mary Jones"} contains no parent of Sarah). -/
theorem claim4_witness :
    processChild (resolveLines ["John Smith + Mary Jones"]) "Sarah John Smith"
      = { resolveLines ["John Smith + Mary Jones"] with people :=
          (linkParentChild
            (addPersonWithAncestry (resolveLines ["John Smith + Mary Jones"]).people
              "Sarah John Smith")
            "John Smith" "Sarah John Smith") } := by
  obtain ⟨chosen, hfind, hdef, hmem, heq, _, _⟩ :=
    claim4_primary_parent (resolveLines ["John Smith + Mary Jones"]) "Sarah John Smith" _
      rfl (by decide) (by decide)
  have hch : chosen = "John Smith" := by rw [hdef]; decide
  rw [hch] at heq
  exact heq

/-- C5 (counterexample): the people map for
`["John Smith + Mary Jones", "Sarah John Smith"]` also contains "Jones"
(synthesized from "Mary Jones"), so it is not exactly the four claimed
persons. -/
theorem claim5_counterexample :
    ∃ P, aget (generateTreePeople ["John Smith + Mary Jones", "Sarah John Smith"]) "Jones"
      = some P :=
  ⟨_, rfl⟩

/-- C5 (amended): the people map is exactly {John Smith, Smith, Mary Jones,
Jones, Sarah John Smith} (roots "Smith" and "Jones" are synthesized from
both union participants); Sarah's parents are exactly ["John Smith"]; and
after the closure "Sarah John Smith" is in "Mary Jones"'s children. -/
theorem claim5_concrete_scenario :
    (generateTreePeople ["John Smith + Mary Jones", "Sarah John Smith"]).map (fun e => e.1)
      = ["John Smith", "Smith", "Mary Jones", "Jones", "Sarah John Smith"] ∧
    (∃ P, aget (generateTreePeople ["John Smith + Mary Jones", "Sarah John Smith"])
        "Sarah John Smith" = some P ∧ P.parents = ["John Smith"]) ∧
    (∃ Q, aget (generateTreePeople ["John Smith + Mary Jones", "Sarah John Smith"])
        "Mary Jones" = some Q ∧ "Sarah John Smith" ∈ Q.children) :=
  ⟨by decide, ⟨_, rfl, by decide⟩, ⟨_, rfl, by decide⟩⟩

/-- C6 (counterexample): in `["A B C"]` the synthesized ancestor "B C" has
`rootName` "B C", not its most distant ancestor "C". -/
theorem claim6_counterexample :
    ∃ P, aget (generateTreePeople ["A B C"]) "B C" = some P ∧
      ¬ P.rootName = chainRoot "B C" :=
  ⟨_, rfl, by decide⟩

/-- C6 (amended): a person's `rootName` equals the most distant ancestor of
its full name when the person is materialized by `addPersonWithAncestry`
(i.e. first introduced as a line subject or union participant), and the
value is stable: no later line processing and no closure pass changes any
existing person's `rootName`.  (Synthesized intermediate ancestors instead
keep their own name — see the counterexample.) -/
theorem claim6_root_full_name :
    (∀ (m : People) (n : String), aget m n = none →
      ∃ P, aget (addPersonWithAncestry m n) n = some P ∧ P.rootName = chainRoot n) ∧
    (∀ (st : RState) (line k : String) (P : Person), aget st.people k = some P →
      ∃ P', aget (processLine st line).people k = some P' ∧ P'.rootName = P.rootName) ∧
    (∀ (m : People) (k : String) (P : Person), aget m k = some P →
      ∃ P', aget (inheritanceClosure m) k = some P' ∧ P'.rootName = P.rootName) := by
  refine ⟨fun m n hn => addPerson_fresh_rootName hn, ?_, ?_⟩
  · intro st line k P hP
    exact preserves_rootName (processLine_preserves st line) hP
  · intro m k P hP
    exact preserves_rootName (inheritanceClosure_preserves m) hP

/-- C6 (witness): instances of all three parts on concrete inputs. -/
theorem claim6_witness :
    (aget ([] : People) "A B" = none ∧
      (∃ P, aget (addPersonWithAncestry ([] : People) "A B") "A B" = some P ∧
        P.rootName = chainRoot "A B")) ∧
    (∃ P P', aget (resolveLines ["A B"]).people "A B" = some P ∧
      aget (processLine (resolveLines ["A B"]) "C D").people "A B" = some P' ∧
      P'.rootName = P.rootName) ∧
    (∃ P P', aget (resolveLines ["A B"]).people "A B" = some P ∧
      aget (inheritanceClosure (resolveLines ["A B"]).people) "A B" = some P' ∧
      P'.rootName = P.rootName) := by
  refine ⟨⟨rfl, claim6_root_full_name.1 [] "A B" rfl⟩, ?_, ?_⟩
  · obtain ⟨P', h1, h2⟩ :=
      claim6_root_full_name.2.1 (resolveLines ["A B"]) "C D" "A B" _ rfl
    exact ⟨_, P', rfl, h1, h2⟩
  · obtain ⟨P', h1, h2⟩ :=
      claim6_root_full_name.2.2 (resolveLines ["A B"]).people "A B" _ rfl
    exact ⟨_, P', rfl, h1, h2⟩

/-- C10: for the input `["B + A B"]` (a union between a person and their
name-derived parent), the closure pushes "A B" into its own children list:
the post-resolution child relation is not irreflexive. -/
theorem claim10_self_child :
    ∃ P, aget (generateTreePeople ["B + A B"]) "A B" = some P ∧ "A B" ∈ P.children :=
  ⟨_, rfl, by decide⟩

/-! ### Layout lemmas -/

theorem computeSubtreeWidth_succ (g : GroupGraph) (gap : ℚ) (fuel : Nat) (m : WMap)
    (rep : String) :
    computeSubtreeWidth g gap (fuel + 1) m rep =
      match childrenOf g rep with
      | none => some (baseWidth, aset m rep baseWidth)
      | some cs =>
        Option.bind (cs.foldlM (fun (acc : ℚ × WMap) c =>
            Option.bind (computeSubtreeWidth g gap fuel acc.2 c)
              (fun w => some (acc.1 + w.1, w.2))) ((0 : ℚ), m))
          (fun r => some (max baseWidth (r.1 + gap * ((cs.length : ℚ) - 1)),
            aset r.2 rep (max baseWidth (r.1 + gap * ((cs.length : ℚ) - 1))))) := rfl

/-- Every width the first layout pass computes is at least `baseWidth`. -/
theorem computeSubtreeWidth_ge {g : GroupGraph} {gap : ℚ} {fuel : Nat} {m m' : WMap}
    {rep : String} {w : ℚ} (h : computeSubtreeWidth g gap fuel m rep = some (w, m')) :
    baseWidth ≤ w := by
  cases fuel with
  | zero => cases h
  | succ f =>
    rw [computeSubtreeWidth_succ] at h
    cases hc : childrenOf g rep with
    | none =>
      rw [hc] at h
      have h2 : some (baseWidth, aset m rep baseWidth) = some (w, m') := h
      injection h2 with h2
      injection h2 with h1 _
      rw [← h1]
    | some cs =>
      rw [hc] at h
      have h2 : Option.bind (cs.foldlM (fun (acc : ℚ × WMap) c =>
          Option.bind (computeSubtreeWidth g gap f acc.2 c)
            (fun w => some (acc.1 + w.1, w.2))) ((0 : ℚ), m))
          (fun r => some (max baseWidth (r.1 + gap * ((cs.length : ℚ) - 1)),
            aset r.2 rep (max baseWidth (r.1 + gap * ((cs.length : ℚ) - 1)))))
          = some (w, m') := h
      cases hr : cs.foldlM (fun (acc : ℚ × WMap) c =>
          Option.bind (computeSubtreeWidth g gap f acc.2 c)
            (fun w => some (acc.1 + w.1, w.2))) ((0 : ℚ), m) with
      | none => rw [hr] at h2; cases h2
      | some r =>
        rw [hr] at h2
        have h3 : some (max baseWidth (r.1 + gap * ((cs.length : ℚ) - 1)),
            aset r.2 rep (max baseWidth (r.1 + gap * ((cs.length : ℚ) - 1))))
            = some (w, m') := h2
        injection h3 with h3
        injection h3 with h1 _
        rw [← h1]
        exact le_max_left _ _

theorem childSpans_cons (f : String → ℚ) (gap x : ℚ) (c : String) (cs : List String) :
    childSpans f gap x (c :: cs) = (c, x, f c) :: childSpans f gap (x + f c + gap) cs := rfl

/-- Every span in the child loop starts at or after the running `currentX`. -/
theorem childSpans_start_le {f : String → ℚ} {gap : ℚ} {l : List String}
    (hpos : ∀ d ∈ l, 0 ≤ f d) (hgap : 0 ≤ gap) :
    ∀ (x : ℚ), ∀ b ∈ childSpans f gap x l, x ≤ b.2.1 := by
  induction l with
  | nil => intro x b hb; cases hb
  | cons d ds ih =>
    intro x b hb
    rw [childSpans_cons] at hb
    rcases List.mem_cons.mp hb with rfl | hbm
    · simp
    · have hd : 0 ≤ f d := hpos d (List.mem_cons_self _ _)
      have := ih (fun e he => hpos e (List.mem_cons_of_mem _ he)) (x + f d + gap) b hbm
      linarith

/-! ### Claim theorems: the layout engine -/

/-- C7: for the children of any group in the descent-group graph, with any
positive `horizontalGap` and subtree widths produced by
`computeSubtreeWidth`, the horizontal spans `[xStart, xStart + width)` that
the `assignPositions` child loop allocates are pairwise disjoint (each span
ends strictly before the next begins). -/
theorem claim7_no_sibling_overlap (g : GroupGraph) (gap : ℚ) (fuel : Nat)
    (f : String → ℚ) (parent : String) (cs : List String) (xStart : ℚ)
    (hgap : 0 < gap) (hcs : childrenOf g parent = some cs)
    (hw : ∀ c ∈ cs, ∃ m r, computeSubtreeWidth g gap fuel m c = some (f c, r)) :
    (childSpans f gap xStart cs).Pairwise (fun a b => a.2.1 + a.2.2 < b.2.1) := by
  have hpos : ∀ c ∈ cs, 0 ≤ f c := by
    intro c hc
    obtain ⟨m, r, h⟩ := hw c hc
    have hb := computeSubtreeWidth_ge h
    have h100 : (0 : ℚ) ≤ baseWidth := by norm_num [baseWidth]
    linarith
  clear hw hcs
  induction cs generalizing xStart with
  | nil => exact List.Pairwise.nil
  | cons c rest ih =>
    rw [childSpans_cons]
    refine List.Pairwise.cons ?_ (ih _ (fun d hd => hpos d (List.mem_cons_of_mem _ hd)))
    intro b hb
    have hstart := childSpans_start_le (l := rest)
      (fun d hd => hpos d (List.mem_cons_of_mem _ hd)) (le_of_lt hgap)
      (xStart + f c + gap) b hb
    show xStart + f c < b.2.1
    linarith

/-- C7 (witness): a parent group "P" with children "A" and "B", gap 50. -/
theorem claim7_witness :
    ((0 : ℚ) < 50 ∧ childrenOf [("P", ["A", "B"])] "P" = some ["A", "B"] ∧
      (∀ c ∈ ["A", "B"], ∃ m r,
        computeSubtreeWidth [("P", ["A", "B"])] 50 3 m c = some ((fun _ => (100 : ℚ)) c, r))) ∧
    (childSpans (fun _ => (100 : ℚ)) 50 0 ["A", "B"]).Pairwise
      (fun a b => a.2.1 + a.2.2 < b.2.1) := by
  have hw : ∀ c ∈ ["A", "B"], ∃ m r,
      computeSubtreeWidth [("P", ["A", "B"])] 50 3 m c = some ((fun _ => (100 : ℚ)) c, r) := by
    intro c hc
    cases hc with
    | head => exact ⟨[], [("A", 100)], rfl⟩
    | tail _ hc2 =>
      cases hc2 with
      | head => exact ⟨[], [("B", 100)], rfl⟩
      | tail _ hc3 => cases hc3
  exact ⟨⟨by norm_num, rfl, hw⟩,
    claim7_no_sibling_overlap [("P", ["A", "B"])] 50 3 (fun _ => 100) "P" ["A", "B"] 0
      (by norm_num) rfl hw⟩

/-- C8 (the code at the failing input): on the cyclic descent-group graph
R → A → B → A (with A's and B's groups in a cycle reachable from the root
group R), the `computeSubtreeWidth` recursion — which has no
recursion-depth or visited-set guard — never completes: no recursion
budget produces a width for "R". -/
theorem claim8_layout_cycle_unguarded :
    (∀ (fuel : Nat) (m : WMap),
      computeSubtreeWidth [("R", ["A"]), ("A", ["B"]), ("B", ["A"])] 50 fuel m "R" = none) ∧
    ¬ subtreeWidthTerminates [("R", ["A"]), ("A", ["B"]), ("B", ["A"])] 50 "R" := by
  have key : ∀ (fuel : Nat) (m : WMap),
      computeSubtreeWidth [("R", ["A"]), ("A", ["B"]), ("B", ["A"])] 50 fuel m "A" = none ∧
      computeSubtreeWidth [("R", ["A"]), ("A", ["B"]), ("B", ["A"])] 50 fuel m "B" = none := by
    intro fuel
    induction fuel with
    | zero => intro m; exact ⟨rfl, rfl⟩
    | succ f ih =>
      intro m
      have ihA : ∀ mm : WMap,
          computeSubtreeWidth [("R", ["A"]), ("A", ["B"]), ("B", ["A"])] 50 f mm "A" = none :=
        fun mm => (ih mm).1
      have ihB : ∀ mm : WMap,
          computeSubtreeWidth [("R", ["A"]), ("A", ["B"]), ("B", ["A"])] 50 f mm "B" = none :=
        fun mm => (ih mm).2
      constructor
      · show Option.bind (List.foldlM _ ((0 : ℚ), m) ["B"]) _ = none
        rw [List.foldlM_cons]
        simp [ihB]
      · show Option.bind (List.foldlM _ ((0 : ℚ), m) ["A"]) _ = none
        rw [List.foldlM_cons]
        simp [ihA]
  have hR : ∀ (fuel : Nat) (m : WMap),
      computeSubtreeWidth [("R", ["A"]), ("A", ["B"]), ("B", ["A"])] 50 fuel m "R" = none := by
    intro fuel m
    cases fuel with
    | zero => rfl
    | succ f =>
      show Option.bind (List.foldlM _ ((0 : ℚ), m) ["A"]) _ = none
      rw [List.foldlM_cons]
      simp [fun mm => (key f mm).1]
  refine ⟨hR, ?_⟩
  rintro ⟨fuel, r, hr⟩
  rw [hR fuel []] at hr
  cases hr

theorem updateNodePositions_ids (nodes : List LNode) (pm : PosMap) :
    (updateNodePositions nodes pm).map (fun n => n.id) = nodes.map (fun n => n.id) := by
  induction nodes with
  | nil => rfl
  | cons n rest ih =>
    show ((match aget pm n.id with
      | some p => { n with x := p.1, y := p.2 }
      | none => n) :: updateNodePositions rest pm).map (fun n => n.id)
      = n.id :: rest.map (fun n => n.id)
    rw [List.map_cons, ih]
    congr 1
    cases aget pm n.id <;> rfl

theorem labelWidthOf_update (nodes : List LNode) (pm : PosMap) (i : String) :
    labelWidthOf (updateNodePositions nodes pm) i = labelWidthOf nodes i := by
  induction nodes with
  | nil => rfl
  | cons n rest ih =>
    have hid : (match aget pm n.id with
      | some p => { n with x := p.1, y := p.2 }
      | none => n).id = n.id := by cases aget pm n.id <;> rfl
    have hlab : (match aget pm n.id with
      | some p => { n with x := p.1, y := p.2 }
      | none => n).label = n.label := by cases aget pm n.id <;> rfl
    show labelWidthOf ((match aget pm n.id with
      | some p => { n with x := p.1, y := p.2 }
      | none => n) :: updateNodePositions rest pm) i = labelWidthOf (n :: rest) i
    unfold labelWidthOf
    rw [List.find?_cons, List.find?_cons, hid]
    cases hb : (n.id == i) with
    | true =>
      simp only
      rw [hlab]
    | false =>
      simp only
      exact ih

/-- The layout ignores the stored node positions: writing any position map
back into the nodes leaves `calculateCustomPositions` unchanged. -/
theorem calculateCustomPositions_update (nodes : List LNode) (edges : List LEdge)
    (v g : ℚ) (pm : PosMap) :
    calculateCustomPositions (updateNodePositions nodes pm) edges v g =
      calculateCustomPositions nodes edges v g := by
  unfold calculateCustomPositions
  rw [updateNodePositions_ids]
  congr 1
  funext i
  exact labelWidthOf_update nodes pm i

theorem rotPoint_upToDown (p : ℚ × ℚ) : rotPoint .upToDown p = p := by
  unfold rotPoint rotCos rotSin
  simp

/-- C9: (1) the 0° rotation (`up-to-down`) is the identity transform modulo
the horizontal recentering; (2) every rotation call recomputes the
canonical un-rotated layout from the node/edge data and ignores previously
stored (possibly rotated) positions, so two successive rotation calls give
exactly the result of the second call alone — rotations never compound
(in particular 90° then −90° equals a single direct −90° call). -/
theorem claim9_rotation_canonical :
    (∀ (nodes : List LNode) (edges : List LEdge) (v g : ℚ),
      applyLayoutRotation .upToDown nodes edges v g
        = recenterHoriz (calculateCustomPositions nodes edges v g)) ∧
    (∀ (nodes : List LNode) (edges : List LEdge) (v g : ℚ) (m1 m2 : LayoutMode),
      applyLayoutRotation m2
          (updateNodePositions nodes (applyLayoutRotation m1 nodes edges v g)) edges v g
        = applyLayoutRotation m2 nodes edges v g) := by
  constructor
  · intro nodes edges v g
    unfold applyLayoutRotation rotateAndRecenter
    congr 1
    simp [rotPoint_upToDown]
  · intro nodes edges v g m1 m2
    unfold applyLayoutRotation
    rw [calculateCustomPositions_update]

end FamilyTree
